import Mathlib

/-!
Verification of the YAML normalizer (normalize_tekton.py).

The script normalizes duration scalars, strips a fixed set of metadata keys,
rewrites apiVersion strings, and opportunistically parses stringified JSON
values.  We embed the parsed YAML document tree as a mutual inductive type
and translate each function of the source into an executable Lean function;
the recursion of delete_recursive and walk runs on structural fuel bounded
by the size of the document, so that every definition evaluates by kernel
reduction on concrete inputs.
-/

set_option autoImplicit false

mutual
/-- A parsed YAML value: string, integer, boolean or null scalars, mappings
(ordered key/value entry lists, as Python dicts preserve insertion order)
and sequences. -/
inductive Yaml where
  | str (s : String)
  | int (n : Int)
  | bool (b : Bool)
  | null
  | map (es : Entries)
  | list (xs : Items)
  deriving DecidableEq

inductive Entries where
  | nil
  | cons (k : String) (v : Yaml) (rest : Entries)
  deriving DecidableEq

inductive Items where
  | nil
  | cons (v : Yaml) (rest : Items)
  deriving DecidableEq
end

mutual
/-- Structural size of a document, used as recursion fuel. -/
def ysize : Yaml → Nat
  | .map es => ysizeE es + 1
  | .list xs => ysizeI xs + 1
  | _ => 1

def ysizeE : Entries → Nat
  | .nil => 0
  | .cons _ v rest => ysize v + ysizeE rest + 1

def ysizeI : Items → Nat
  | .nil => 0
  | .cons v rest => ysize v + ysizeI rest + 1
end

/-! ## Duration normalizer

Model of DURATION_RE = `(\d+)h`-opt `(\d+)m`-opt `(\d+)s`-opt, anchored, and
of normalize_duration.  Since the three groups are delimited by distinct
non-digit unit letters, the regex match is deterministic: each optional
group matches exactly when a maximal nonempty digit run is followed by the
unit letter. -/

/-- Split a character list into its maximal leading digit run and the rest. -/
def takeDigits : List Char → List Char × List Char
  | [] => ([], [])
  | c :: cs =>
    if c.isDigit then
      let p := takeDigits cs
      (c :: p.1, p.2)
    else ([], c :: cs)

/-- Try to match one optional regex group `(\d+)u`: on success return the
digit run (the capture) and the remaining input, otherwise consume
nothing. -/
def matchGroup (u : Char) (cs : List Char) : Option (List Char) × List Char :=
  match takeDigits cs with
  | ([], _) => (none, cs)
  | (d, c :: r) => if c = u then (some d, r) else (none, cs)
  | (_, []) => (none, cs)

/-- DURATION_RE.fullmatch: the three captured groups, or none when the
string does not match the anchored pattern. -/
def duration_fullmatch (s : String) :
    Option (Option (List Char) × Option (List Char) × Option (List Char)) :=
  let p1 := matchGroup 'h' s.toList
  let p2 := matchGroup 'm' p1.2
  let p3 := matchGroup 's' p2.2
  if p3.2 = [] then some (p1.1, p2.1, p3.1) else none

/-- Python `int` on a digit string (decimal value, accumulator style). -/
def digitsVal : List Char → Nat → Nat
  | [], acc => acc
  | c :: cs, acc => digitsVal cs (acc * 10 + (c.toNat - 48))

def digitsToNat (ds : List Char) : Nat := digitsVal ds 0

/-- Decimal rendering of a natural number (Python `str` of an int), with
structural fuel; fuel `n` always suffices for value `n`. -/
def natToDecF : Nat → Nat → List Char
  | 0, n => [Char.ofNat (48 + n)]
  | fuel + 1, n =>
    if n < 10 then [Char.ofNat (48 + n)]
    else natToDecF fuel (n / 10) ++ [Char.ofNat (48 + n % 10)]

def natToDec (n : Nat) : List Char := natToDecF n n

/-- One `parts.append` step of normalize_duration: the re-emitted fragment
for one captured group (empty when the group is absent or its value is
zero). -/
def mkPart (g : Option (List Char)) (u : Char) : List Char :=
  match g with
  | none => []
  | some d => if digitsToNat d ≠ 0 then natToDec (digitsToNat d) ++ [u] else []

/-- normalize_duration: non-matching strings are returned unchanged;
otherwise the nonzero components are re-emitted in order h, m, s, and the
all-zero/empty case yields "0s". -/
def normalize_duration (s : String) : String :=
  match duration_fullmatch s with
  | none => s
  | some (h, mm, ss) =>
    let parts := mkPart h 'h' ++ mkPart mm 'm' ++ mkPart ss 's'
    if parts = [] then "0s" else String.mk parts

/-! ### Properties of the duration normalizer -/

theorem digitsVal_append (xs ys : List Char) (acc : Nat) :
    digitsVal (xs ++ ys) acc = digitsVal ys (digitsVal xs acc) := by
  induction xs generalizing acc with
  | nil => rfl
  | cons c cs ih => simp [digitsVal, ih]

theorem char_ofNat_digit (n : Nat) (h : n < 10) :
    (Char.ofNat (48 + n)).isDigit = true ∧ (Char.ofNat (48 + n)).toNat = 48 + n := by
  interval_cases n <;> exact ⟨by decide, by decide⟩

theorem natToDecF_digits (f : Nat) :
    ∀ n, n ≤ f → ∀ c ∈ natToDecF f n, c.isDigit := by
  induction f with
  | zero =>
    intro n hn c hc
    interval_cases n
    simp [natToDecF] at hc
    subst hc
    decide
  | succ f ih =>
    intro n hn c hc
    by_cases h10 : n < 10
    · simp [natToDecF, h10] at hc
      subst hc
      exact (char_ofNat_digit n h10).1
    · simp only [natToDecF, if_neg h10, List.mem_append, List.mem_singleton] at hc
      rcases hc with hc | hc
      · refine ih (n / 10) ?_ c hc
        have hlt : n / 10 < n := Nat.div_lt_self (by omega) (by omega)
        omega
      · subst hc
        exact (char_ofNat_digit (n % 10) (Nat.mod_lt n (by omega))).1

theorem natToDecF_ne_nil (f n : Nat) : natToDecF f n ≠ [] := by
  cases f with
  | zero => simp [natToDecF]
  | succ f =>
    by_cases h10 : n < 10 <;> simp [natToDecF, h10]

theorem natToDecF_val (f : Nat) :
    ∀ n acc, n ≤ f →
      digitsVal (natToDecF f n) acc = acc * 10 ^ (natToDecF f n).length + n := by
  induction f with
  | zero =>
    intro n acc hn
    interval_cases n
    simp [natToDecF, digitsVal]
  | succ f ih =>
    intro n acc hn
    by_cases h10 : n < 10
    · have := (char_ofNat_digit n h10).2
      simp [natToDecF, h10, digitsVal, this]
    · have hdiv : n / 10 ≤ f := by
        have hlt : n / 10 < n := Nat.div_lt_self (by omega) (by omega)
        omega
      have hmod := (char_ofNat_digit (n % 10) (Nat.mod_lt n (by omega))).2
      simp only [natToDecF, if_neg h10, digitsVal_append, digitsVal, hmod,
        ih (n / 10) acc hdiv, List.length_append, List.length_singleton]
      have h1 : 10 ^ ((natToDecF f (n / 10)).length + 1)
          = 10 ^ (natToDecF f (n / 10)).length * 10 := by ring
      have h2 : n / 10 * 10 + n % 10 = n := by omega
      rw [h1]
      ring_nf
      omega

theorem natToDec_digits (n : Nat) : ∀ c ∈ natToDec n, c.isDigit :=
  natToDecF_digits n n le_rfl

theorem natToDec_ne_nil (n : Nat) : natToDec n ≠ [] := natToDecF_ne_nil n n

theorem digitsToNat_natToDec (n : Nat) : digitsToNat (natToDec n) = n := by
  have := natToDecF_val n n 0 le_rfl
  simpa [digitsToNat, natToDec] using this

theorem takeDigits_nondigit (c : Char) (cs : List Char) (h : c.isDigit = false) :
    takeDigits (c :: cs) = ([], c :: cs) := by
  simp [takeDigits, h]

theorem takeDigits_all_digits (ds : List Char) (r : List Char)
    (h : ∀ c ∈ ds, c.isDigit) :
    takeDigits (ds ++ r) = (ds ++ (takeDigits r).1, (takeDigits r).2) := by
  induction ds with
  | nil => simp
  | cons c cs ih =>
    have hc : c.isDigit := h c (List.mem_cons_self c cs)
    simp [takeDigits, hc, ih fun x hx => h x (List.mem_cons_of_mem c hx)]

theorem matchGroup_nil (u : Char) : matchGroup u [] = (none, []) := rfl

theorem matchGroup_frag (u : Char) (k : Nat) (r : List Char)
    (hu : u.isDigit = false) :
    matchGroup u (natToDec k ++ u :: r) = (some (natToDec k), r) := by
  unfold matchGroup
  rw [takeDigits_all_digits _ _ (natToDec_digits k), takeDigits_nondigit u r hu]
  obtain ⟨c0, cs0, h0⟩ := List.exists_cons_of_ne_nil (natToDec_ne_nil k)
  rw [h0]
  simp

theorem matchGroup_skip (u u' : Char) (k : Nat) (r : List Char)
    (hu' : u'.isDigit = false) (hne : u' ≠ u) :
    matchGroup u (natToDec k ++ u' :: r) = (none, natToDec k ++ u' :: r) := by
  unfold matchGroup
  rw [takeDigits_all_digits _ _ (natToDec_digits k), takeDigits_nondigit u' r hu']
  obtain ⟨c0, cs0, h0⟩ := List.exists_cons_of_ne_nil (natToDec_ne_nil k)
  rw [h0]
  simp [hne]

theorem matchGroup_head_nondigit (u u' : Char) (r : List Char)
    (hu' : u'.isDigit = false) :
    matchGroup u (u' :: r) = (none, u' :: r) := by
  unfold matchGroup
  rw [takeDigits_nondigit u' r hu']

/-- A canonical output fragment: nothing, or the decimal digits of a nonzero
value followed by the unit letter. -/
def fragO : Option Nat → Char → List Char
  | none, _ => []
  | some k, u => natToDec k ++ [u]

/-- The value a captured group contributes to the output: its decimal value
when nonzero. -/
def toOptVal : Option (List Char) → Option Nat
  | none => none
  | some d => if digitsToNat d ≠ 0 then some (digitsToNat d) else none

theorem mkPart_eq_fragO (g : Option (List Char)) (u : Char) :
    mkPart g u = fragO (toOptVal g) u := by
  cases g with
  | none => rfl
  | some d =>
    by_cases h : digitsToNat d ≠ 0 <;> simp [mkPart, toOptVal, fragO, h]

theorem toOptVal_ne_zero (g : Option (List Char)) (k : Nat)
    (h : toOptVal g = some k) : k ≠ 0 := by
  cases g with
  | none => simp [toOptVal] at h
  | some d =>
    by_cases h0 : digitsToNat d ≠ 0 <;> simp [toOptVal, h0] at h
    omega

theorem mkPart_map_natToDec (a : Option Nat) (u : Char)
    (ha : ∀ k, a = some k → k ≠ 0) :
    mkPart (a.map natToDec) u = fragO a u := by
  cases a with
  | none => rfl
  | some k =>
    have hk : k ≠ 0 := ha k rfl
    simp [mkPart, fragO, digitsToNat_natToDec, hk]

theorem toList_mk (l : List Char) : (String.mk l).toList = l := rfl

theorem fullmatch_canon (a b c : Option Nat)
    (hne : ¬(fragO a 'h' ++ fragO b 'm' ++ fragO c 's' = [])) :
    duration_fullmatch (String.mk (fragO a 'h' ++ fragO b 'm' ++ fragO c 's')) =
      some (a.map natToDec, b.map natToDec, c.map natToDec) := by
  have hdh : ('h').isDigit = false := by decide
  have hdm : ('m').isDigit = false := by decide
  have hds : ('s').isDigit = false := by decide
  have hmh : ('m') ≠ 'h' := by decide
  have hsh : ('s') ≠ 'h' := by decide
  have hsm : ('s') ≠ 'm' := by decide
  cases a <;> cases b <;> cases c <;>
    simp_all [duration_fullmatch, fragO, toList_mk, matchGroup_frag,
      matchGroup_skip, matchGroup_nil, List.append_assoc]

/-- C4: duration normalizer reference values: "15m0s" collapses to "15m",
"1h0m0s" to "1h", the all-zero and empty strings yield "0s", "2h30m" is
already normal, and a non-matching string is returned unchanged. -/
theorem claim_C4_duration_reference_values :
    normalize_duration "15m0s" = "15m" ∧
    normalize_duration "1h0m0s" = "1h" ∧
    normalize_duration "0h0m0s" = "0s" ∧
    normalize_duration "" = "0s" ∧
    normalize_duration "2h30m" = "2h30m" ∧
    normalize_duration "not-a-duration" = "not-a-duration" := by
  refine ⟨?_, ?_, ?_, ?_, ?_, ?_⟩ <;> decide

theorem normalize_duration_idem (s : String) :
    normalize_duration (normalize_duration s) = normalize_duration s := by
  cases hm : duration_fullmatch s with
  | none =>
    have h1 : normalize_duration s = s := by simp [normalize_duration, hm]
    simp only [h1]
  | some g =>
    obtain ⟨gh, gm, gs⟩ := g
    have h1 : normalize_duration s =
        if mkPart gh 'h' ++ mkPart gm 'm' ++ mkPart gs 's' = [] then "0s"
        else String.mk (mkPart gh 'h' ++ mkPart gm 'm' ++ mkPart gs 's') := by
      simp [normalize_duration, hm]
    by_cases hp : mkPart gh 'h' ++ mkPart gm 'm' ++ mkPart gs 's' = []
    · rw [h1, if_pos hp]
      decide
    · rw [h1, if_neg hp]
      rw [mkPart_eq_fragO gh 'h', mkPart_eq_fragO gm 'm',
        mkPart_eq_fragO gs 's'] at hp ⊢
      unfold normalize_duration
      rw [fullmatch_canon _ _ _ hp]
      simp only
      rw [mkPart_map_natToDec _ _ (toOptVal_ne_zero gh),
        mkPart_map_natToDec _ _ (toOptVal_ne_zero gm),
        mkPart_map_natToDec _ _ (toOptVal_ne_zero gs)]
      rw [if_neg hp]

/-- C5: normalize_duration is idempotent: applying it to its own output
returns that output unchanged, for every string. -/
theorem claim_C5_duration_idempotent (s : String) :
    normalize_duration (normalize_duration s) = normalize_duration s :=
  normalize_duration_idem s

/-- C6: normalize_duration is a total function on strings (it is defined as
a total Lean function, so it cannot raise), and every string that does not
match the anchored duration pattern is returned unchanged. -/
theorem claim_C6_duration_totality (s : String)
    (h : duration_fullmatch s = none) : normalize_duration s = s := by
  simp [normalize_duration, h]

theorem claim_C6_duration_totality_witness :
    duration_fullmatch "not-a-duration" = none ∧
      normalize_duration "not-a-duration" = "not-a-duration" :=
  ⟨by decide, claim_C6_duration_totality "not-a-duration" (by decide)⟩

/-! ## Field deletion (delete_recursive)

delete_recursive removes all occurrences of a nested key given by a
path of key segments, working in place on dicts and lists.  We model the
in-place mutation functionally: the worker returns the updated node
together with the removal count.  Its recursion also visits values that
were just updated, so it runs on structural fuel; fuel `ysize o` always
suffices because deletion never grows a document. -/

/-- Python `head in o` on a dict. -/
def hasKey (k : String) : Entries → Bool
  | .nil => false
  | .cons k' _ rest => if k' = k then true else hasKey k rest

/-- Python `del o[head]`: drop the entry for a key (a dict holds at most
one entry per key). -/
def delKey (k : String) : Entries → Entries
  | .nil => .nil
  | .cons k' v rest => if k' = k then rest else .cons k' v (delKey k rest)

/-- The in-place update `removed += _remove(o[head], tail)`: transform the
value stored at a key, returning the updated entries and the count. -/
def mapAtKey (k : String) (f : Yaml → Yaml × Nat) : Entries → Entries × Nat
  | .nil => (.nil, 0)
  | .cons k' v rest =>
    if k' = k then
      let p := f v
      (.cons k' p.1 rest, p.2)
    else
      let p := mapAtKey k f rest
      (.cons k' v p.1, p.2)

/-- `for v in list(o.values()): removed += _remove(v, parts)`. -/
def mapVals (f : Yaml → Yaml × Nat) : Entries → Entries × Nat
  | .nil => (.nil, 0)
  | .cons k v rest =>
    let p := f v
    let q := mapVals f rest
    (.cons k p.1 q.1, p.2 + q.2)

/-- `for item in o: removed += _remove(item, parts)`. -/
def mapItemsC (f : Yaml → Yaml × Nat) : Items → Items × Nat
  | .nil => (.nil, 0)
  | .cons v rest =>
    let p := f v
    let q := mapItemsC f rest
    (.cons p.1 q.1, p.2 + q.2)

/-- The recursive worker `_remove(o, parts)` of delete_recursive, on
structural fuel.  When the final path segment is found at a dict the key
is deleted and the call returns immediately; otherwise the head key's
value is processed with the tail path and then every value of the dict is
searched again with the full path. -/
def removeF : Nat → List String → Yaml → Yaml × Nat
  | 0, _, o => (o, 0)
  | _ + 1, [], o => (o, 0)
  | fuel + 1, head :: tail, o =>
    match o with
    | .map es =>
      if hasKey head es then
        if tail.isEmpty then (.map (delKey head es), 1)
        else
          let p := mapAtKey head (removeF fuel tail) es
          let q := mapVals (removeF fuel (head :: tail)) p.1
          (.map q.1, p.2 + q.2)
      else
        let q := mapVals (removeF fuel (head :: tail)) es
        (.map q.1, q.2)
    | .list xs =>
      let q := mapItemsC (removeF fuel (head :: tail)) xs
      (.list q.1, q.2)
    | _ => (o, 0)

/-- delete_recursive with the path already split into segments. -/
def delete_recursive (parts : List String) (o : Yaml) : Yaml × Nat :=
  removeF (ysize o) parts o

/-! ### Unfolding equations and fuel adequacy for delete_recursive -/

theorem removeF_map (fuel : Nat) (head : String) (tail : List String)
    (es : Entries) :
    removeF (fuel + 1) (head :: tail) (.map es) =
      if hasKey head es then
        if tail.isEmpty then (.map (delKey head es), 1)
        else
          let p := mapAtKey head (removeF fuel tail) es
          let q := mapVals (removeF fuel (head :: tail)) p.1
          (.map q.1, p.2 + q.2)
      else
        let q := mapVals (removeF fuel (head :: tail)) es
        (.map q.1, q.2) := rfl

theorem removeF_list (fuel : Nat) (head : String) (tail : List String)
    (xs : Items) :
    removeF (fuel + 1) (head :: tail) (.list xs) =
      (.list (mapItemsC (removeF fuel (head :: tail)) xs).1,
        (mapItemsC (removeF fuel (head :: tail)) xs).2) := rfl

theorem removeF_scalar (fuel : Nat) (parts : List String) (o : Yaml)
    (h : ∀ es, o ≠ .map es) (h' : ∀ xs, o ≠ .list xs) :
    removeF fuel parts o = (o, 0) := by
  cases fuel with
  | zero => rfl
  | succ fuel =>
    cases parts with
    | nil => rfl
    | cons head tail =>
      cases o with
      | map es => exact absurd rfl (h es)
      | list xs => exact absurd rfl (h' xs)
      | str s => rfl
      | int n => rfl
      | bool b => rfl
      | null => rfl

theorem removeF_nil_parts (fuel : Nat) (o : Yaml) :
    removeF fuel [] o = (o, 0) := by
  cases fuel <;> rfl

theorem ysize_pos (o : Yaml) : 1 ≤ ysize o := by
  cases o <;> simp [ysize]

theorem delKey_size (k : String) : (es : Entries) →
    ysizeE (delKey k es) ≤ ysizeE es
  | .nil => by simp [delKey]
  | .cons k' v rest => by
    by_cases h : k' = k <;> simp [delKey, h, ysizeE]
    · omega
    · have := delKey_size k rest
      omega

theorem mapAtKey_size (k : String) (f : Yaml → Yaml × Nat)
    (hf : ∀ v, ysize (f v).1 ≤ ysize v) : (es : Entries) →
    ysizeE (mapAtKey k f es).1 ≤ ysizeE es
  | .nil => by simp [mapAtKey]
  | .cons k' v rest => by
    by_cases h : k' = k <;> simp [mapAtKey, h, ysizeE]
    · have := hf v
      omega
    · have := mapAtKey_size k f hf rest
      omega

theorem mapVals_size (f : Yaml → Yaml × Nat)
    (hf : ∀ v, ysize (f v).1 ≤ ysize v) : (es : Entries) →
    ysizeE (mapVals f es).1 ≤ ysizeE es
  | .nil => by simp [mapVals]
  | .cons k v rest => by
    have h1 := hf v
    have h2 := mapVals_size f hf rest
    simp [mapVals, ysizeE]
    omega

theorem mapItemsC_size (f : Yaml → Yaml × Nat)
    (hf : ∀ v, ysize (f v).1 ≤ ysize v) : (xs : Items) →
    ysizeI (mapItemsC f xs).1 ≤ ysizeI xs
  | .nil => by simp [mapItemsC]
  | .cons v rest => by
    have h1 := hf v
    have h2 := mapItemsC_size f hf rest
    simp [mapItemsC, ysizeI]
    omega

/-- Deletion never grows a document. -/
theorem removeF_size (fuel : Nat) :
    ∀ parts o, ysize ((removeF fuel parts o).1) ≤ ysize o := by
  induction fuel with
  | zero => intro parts o; simp [removeF]
  | succ fuel ih =>
    intro parts o
    cases parts with
    | nil => simp [removeF_nil_parts]
    | cons head tail =>
      cases o with
      | map es =>
        rw [removeF_map]
        by_cases hk : hasKey head es
        · by_cases ht : tail.isEmpty
          · have := delKey_size head es
            simp [hk, ht, ysize]
            omega
          · have h1 : ysizeE (mapAtKey head (removeF fuel tail) es).1 ≤ ysizeE es :=
              mapAtKey_size _ _ (fun v => ih tail v) es
            have h2 := mapVals_size (removeF fuel (head :: tail))
              (fun v => ih (head :: tail) v)
              (mapAtKey head (removeF fuel tail) es).1
            simp [hk, ht, ysize]
            omega
        · have := mapVals_size (removeF fuel (head :: tail))
            (fun v => ih (head :: tail) v) es
          simp [hk, ysize]
          omega
      | list xs =>
        rw [removeF_list]
        have := mapItemsC_size (removeF fuel (head :: tail))
          (fun v => ih (head :: tail) v) xs
        simp [ysize]
        omega
      | str s => simp [removeF_scalar]
      | int n => simp [removeF_scalar]
      | bool b => simp [removeF_scalar]
      | null => simp [removeF_scalar]

theorem mapAtKey_congr (k : String) (f g : Yaml → Yaml × Nat) :
    (es : Entries) → (∀ v, ysize v ≤ ysizeE es → f v = g v) →
    mapAtKey k f es = mapAtKey k g es
  | .nil, _ => rfl
  | .cons k' v rest, h => by
    have hv : ysize v ≤ ysizeE (.cons k' v rest) := by
      simp [ysizeE]
      omega
    have hrest : ∀ w, ysize w ≤ ysizeE rest → f w = g w := fun w hw =>
      h w (by simp [ysizeE] at *; omega)
    by_cases hk : k' = k
    · simp [mapAtKey, hk, h v hv]
    · simp [mapAtKey, hk, mapAtKey_congr k f g rest hrest]

theorem mapVals_congr (f g : Yaml → Yaml × Nat) :
    (es : Entries) → (∀ v, ysize v ≤ ysizeE es → f v = g v) →
    mapVals f es = mapVals g es
  | .nil, _ => rfl
  | .cons k v rest, h => by
    have hv : ysize v ≤ ysizeE (.cons k v rest) := by
      simp [ysizeE]
      omega
    have hrest : ∀ w, ysize w ≤ ysizeE rest → f w = g w := fun w hw =>
      h w (by simp [ysizeE] at *; omega)
    simp [mapVals, h v hv, mapVals_congr f g rest hrest]

theorem mapItemsC_congr (f g : Yaml → Yaml × Nat) :
    (xs : Items) → (∀ v, ysize v ≤ ysizeI xs → f v = g v) →
    mapItemsC f xs = mapItemsC g xs
  | .nil, _ => rfl
  | .cons v rest, h => by
    have hv : ysize v ≤ ysizeI (.cons v rest) := by
      simp [ysizeI]
      omega
    have hrest : ∀ w, ysize w ≤ ysizeI rest → f w = g w := fun w hw =>
      h w (by simp [ysizeI] at *; omega)
    simp [mapItemsC, h v hv, mapItemsC_congr f g rest hrest]

/-- Any fuel of at least the document size computes the same result. -/
theorem removeF_fuel (f : Nat) :
    ∀ g parts o, ysize o ≤ f → ysize o ≤ g →
      removeF f parts o = removeF g parts o := by
  induction f with
  | zero =>
    intro g parts o hf _
    have := ysize_pos o
    omega
  | succ f ih =>
    intro g parts o hf hg
    cases g with
    | zero =>
      have := ysize_pos o
      omega
    | succ g =>
      cases parts with
      | nil => rw [removeF_nil_parts, removeF_nil_parts]
      | cons head tail =>
        cases o with
        | map es =>
          have hesf : ysizeE es ≤ f := by simp [ysize] at hf; omega
          have hesg : ysizeE es ≤ g := by simp [ysize] at hg; omega
          rw [removeF_map, removeF_map]
          by_cases hk : hasKey head es
          · by_cases ht : tail.isEmpty
            · simp [hk, ht]
            · have e1 : mapAtKey head (removeF f tail) es
                  = mapAtKey head (removeF g tail) es :=
                mapAtKey_congr _ _ _ es fun v hv =>
                  ih g tail v (hv.trans hesf) (hv.trans hesg)
              have hpg : ysizeE (mapAtKey head (removeF g tail) es).1 ≤ ysizeE es :=
                mapAtKey_size _ _ (fun v => removeF_size g tail v) es
              have e2 : mapVals (removeF f (head :: tail))
                    (mapAtKey head (removeF g tail) es).1
                  = mapVals (removeF g (head :: tail))
                    (mapAtKey head (removeF g tail) es).1 :=
                mapVals_congr _ _ _ fun v hv =>
                  ih g (head :: tail) v ((hv.trans hpg).trans hesf)
                    ((hv.trans hpg).trans hesg)
              simp only [hk, ht, if_true, if_false, e1, e2, Bool.false_eq_true]
          · have e2 : mapVals (removeF f (head :: tail)) es
                = mapVals (removeF g (head :: tail)) es :=
              mapVals_congr _ _ _ fun v hv =>
                ih g (head :: tail) v (hv.trans hesf) (hv.trans hesg)
            simp only [hk, if_false, e2, Bool.false_eq_true]
        | list xs =>
          have hxf : ysizeI xs ≤ f := by simp [ysize] at hf; omega
          have hxg : ysizeI xs ≤ g := by simp [ysize] at hg; omega
          have e : mapItemsC (removeF f (head :: tail)) xs
              = mapItemsC (removeF g (head :: tail)) xs :=
            mapItemsC_congr _ _ xs fun v hv =>
              ih g (head :: tail) v (hv.trans hxf) (hv.trans hxg)
          rw [removeF_list, removeF_list, e]
        | str s => rw [removeF_scalar, removeF_scalar] <;> intro x <;> simp
        | int n => rw [removeF_scalar, removeF_scalar] <;> intro x <;> simp
        | bool b => rw [removeF_scalar, removeF_scalar] <;> intro x <;> simp
        | null => rw [removeF_scalar, removeF_scalar] <;> intro x <;> simp

theorem delete_recursive_def (parts : List String) (o : Yaml) (f : Nat)
    (hf : ysize o ≤ f) : delete_recursive parts o = removeF f parts o :=
  removeF_fuel (ysize o) f parts o le_rfl hf

/-- The recursion equation of delete_recursive at a dict node. -/
theorem delete_recursive_map (head : String) (tail : List String)
    (es : Entries) :
    delete_recursive (head :: tail) (.map es) =
      if hasKey head es then
        if tail.isEmpty then (.map (delKey head es), 1)
        else
          let p := mapAtKey head (delete_recursive tail) es
          let q := mapVals (delete_recursive (head :: tail)) p.1
          (.map q.1, p.2 + q.2)
      else
        let q := mapVals (delete_recursive (head :: tail)) es
        (.map q.1, q.2) := by
  have h0 : delete_recursive (head :: tail) (.map es)
      = removeF (ysizeE es + 1) (head :: tail) (.map es) := rfl
  rw [h0, removeF_map]
  have e1 : mapAtKey head (removeF (ysizeE es) tail) es
      = mapAtKey head (delete_recursive tail) es :=
    mapAtKey_congr _ _ _ es fun v hv =>
      (delete_recursive_def tail v (ysizeE es) hv).symm
  have hp : ysizeE (mapAtKey head (delete_recursive tail) es).1 ≤ ysizeE es :=
    mapAtKey_size _ _ (fun v => removeF_size (ysize v) tail v) es
  have e2 : mapVals (removeF (ysizeE es) (head :: tail))
        (mapAtKey head (delete_recursive tail) es).1
      = mapVals (delete_recursive (head :: tail))
        (mapAtKey head (delete_recursive tail) es).1 :=
    mapVals_congr _ _ _ fun v hv =>
      (delete_recursive_def (head :: tail) v (ysizeE es) (hv.trans hp)).symm
  have e3 : mapVals (removeF (ysizeE es) (head :: tail)) es
      = mapVals (delete_recursive (head :: tail)) es :=
    mapVals_congr _ _ _ fun v hv =>
      (delete_recursive_def (head :: tail) v (ysizeE es) hv).symm
  simp only [e1, e2, e3]

/-- The recursion equation of delete_recursive at a list node. -/
theorem delete_recursive_list (head : String) (tail : List String)
    (xs : Items) :
    delete_recursive (head :: tail) (.list xs) =
      (.list (mapItemsC (delete_recursive (head :: tail)) xs).1,
        (mapItemsC (delete_recursive (head :: tail)) xs).2) := by
  have h0 : delete_recursive (head :: tail) (.list xs)
      = removeF (ysizeI xs + 1) (head :: tail) (.list xs) := rfl
  rw [h0, removeF_list]
  have e : mapItemsC (removeF (ysizeI xs) (head :: tail)) xs
      = mapItemsC (delete_recursive (head :: tail)) xs :=
    mapItemsC_congr _ _ xs fun v hv =>
      (delete_recursive_def (head :: tail) v (ysizeI xs) hv).symm
  rw [e]

theorem delete_recursive_scalar (parts : List String) (o : Yaml)
    (h : ∀ es, o ≠ .map es) (h' : ∀ xs, o ≠ .list xs) :
    delete_recursive parts o = (o, 0) :=
  removeF_scalar (ysize o) parts o h h'

theorem delete_recursive_nil_parts (o : Yaml) :
    delete_recursive [] o = (o, 0) :=
  removeF_nil_parts (ysize o) o

theorem delete_recursive_size (parts : List String) (o : Yaml) :
    ysize (delete_recursive parts o).1 ≤ ysize o :=
  removeF_size (ysize o) parts o

/-! ## JSON parsing (model of json.loads)

walk feeds string values of a `value` key to json.loads.  We model the
JSON grammar for objects, arrays, strings with the simple escapes,
integer numbers and the three literals; fractional and exponent numbers
and unicode escapes are outside the model (no claim exercises them).
Any parse failure yields `none`, the model of a raised ValueError. -/

def lbrace : Char := Char.ofNat 123

def rbrace : Char := Char.ofNat 125

def isJsonWs (c : Char) : Bool :=
  c = ' ' || c = '\t' || c = '\n' || c = '\r'

def skipWs : List Char → List Char
  | [] => []
  | c :: cs => if isJsonWs c then skipWs cs else c :: cs

/-- Decode one character escape inside a JSON string. -/
def escChar (e : Char) : Option Char :=
  if e = '"' then some '"'
  else if e = '\\' then some '\\'
  else if e = '/' then some '/'
  else if e = 'n' then some '\n'
  else if e = 't' then some '\t'
  else if e = 'r' then some '\r'
  else if e = 'b' then some (Char.ofNat 8)
  else if e = 'f' then some (Char.ofNat 12)
  else none

/-- Parse the body of a JSON string (after the opening quote), returning
its contents and the input after the closing quote. -/
def parseStr : List Char → Option (List Char × List Char)
  | [] => none
  | '"' :: cs => some ([], cs)
  | '\\' :: [] => none
  | '\\' :: e :: cs2 =>
    match escChar e, parseStr cs2 with
    | some d, some (s, r) => some (d :: s, r)
    | _, _ => none
  | c :: cs =>
    match parseStr cs with
    | some (s, r) => some (c :: s, r)
    | none => none

/-- Parse a JSON integer (sign and digit run, no leading zeros, and not
followed by a fraction or exponent). -/
def parseNum (cs : List Char) : Option (Int × List Char) :=
  let sp : Bool × List Char :=
    match cs with
    | '-' :: r => (true, r)
    | _ => (false, cs)
  match takeDigits sp.2 with
  | ([], _) => none
  | (ds, r) =>
    let bad : Bool :=
      match ds, r with
      | '0' :: _ :: _, _ => true
      | _, c :: _ => c = '.' || c = 'e' || c = 'E'
      | _, [] => false
    if bad then none
    else
      let v : Int := Int.ofNat (digitsToNat ds)
      some (if sp.1 then -v else v, r)

def lookupKey (k : String) : Entries → Option Yaml
  | .nil => none
  | .cons k' v rest => if k' = k then some v else lookupKey k rest

/-- Python dict insertion for object members parsed left to right: a later
duplicate key keeps the first position but the later value. -/
def insertEntry (k : String) (v : Yaml) (es : Entries) : Entries :=
  match lookupKey k es with
  | some w => .cons k w (delKey k es)
  | none => .cons k v es

mutual
/-- Parse one JSON value; the input starts at a non-space character. -/
def parseVal : Nat → List Char → Option (Yaml × List Char)
  | 0, _ => none
  | fuel + 1, cs =>
    match cs with
    | [] => none
    | c :: cs1 =>
      if c = '"' then
        match parseStr cs1 with
        | some (s, r) => some (.str (String.mk s), r)
        | none => none
      else if c = lbrace then
        match skipWs cs1 with
        | d :: cs3 =>
          if d = rbrace then some (.map .nil, cs3)
          else
            match parseMembers fuel (skipWs cs1) with
            | some (es, r) => some (.map es, r)
            | none => none
        | [] => none
      else if c = '[' then
        match skipWs cs1 with
        | d :: cs3 =>
          if d = ']' then some (.list .nil, cs3)
          else
            match parseElems fuel (skipWs cs1) with
            | some (xs, r) => some (.list xs, r)
            | none => none
        | [] => none
      else if c = 't' then
        match cs with
        | 't' :: 'r' :: 'u' :: 'e' :: r => some (.bool true, r)
        | _ => none
      else if c = 'f' then
        match cs with
        | 'f' :: 'a' :: 'l' :: 's' :: 'e' :: r => some (.bool false, r)
        | _ => none
      else if c = 'n' then
        match cs with
        | 'n' :: 'u' :: 'l' :: 'l' :: r => some (.null, r)
        | _ => none
      else
        match parseNum cs with
        | some (n, r) => some (.int n, r)
        | none => none

/-- Parse the members of a JSON object, positioned at a key. -/
def parseMembers : Nat → List Char → Option (Entries × List Char)
  | 0, _ => none
  | fuel + 1, cs =>
    match cs with
    | '"' :: cs1 =>
      match parseStr cs1 with
      | some (k, r1) =>
        match skipWs r1 with
        | ':' :: r3 =>
          match parseVal fuel (skipWs r3) with
          | some (v, r4) =>
            match skipWs r4 with
            | ',' :: r6 =>
              match parseMembers fuel (skipWs r6) with
              | some (es, r7) => some (insertEntry (String.mk k) v es, r7)
              | none => none
            | d :: r6 =>
              if d = rbrace then some (insertEntry (String.mk k) v .nil, r6)
              else none
            | [] => none
          | none => none
        | _ => none
      | none => none
    | _ => none

/-- Parse the elements of a JSON array, positioned at an element. -/
def parseElems : Nat → List Char → Option (Items × List Char)
  | 0, _ => none
  | fuel + 1, cs =>
    match parseVal fuel cs with
    | some (v, r1) =>
      match skipWs r1 with
      | ',' :: r2 =>
        match parseElems fuel (skipWs r2) with
        | some (xs, r3) => some (.cons v xs, r3)
        | none => none
      | ']' :: r2 => some (.cons v .nil, r2)
      | _ => none
    | none => none
end

/-- json.loads: parse a complete JSON document with surrounding
whitespace; every failure is `none` (the model of a raised exception,
which walk catches). -/
def json_loads (s : String) : Option Yaml :=
  match parseVal (s.length + 2) (skipWs s.toList) with
  | some (v, r) => if skipWs r = [] then some v else none
  | none => none

/-! ## The tree walk -/

/-- Python isinstance(v, str). -/
def isStrB : Yaml → Bool
  | .str _ => true
  | _ => false

/-- The string carried by a string scalar. -/
def getStr : Yaml → String
  | .str s => s
  | _ => ""

/-- The elif chain of walk for one mapping entry `(k, v)`: `none` means the
key is dropped, `some nv` that `new[k] = nv`.  The argument `w` stands for
`walk v`, used by the final else branch. -/
def ruleVal (k : String) (v : Yaml) (w : Yaml) : Option Yaml :=
  if k = "timeout" ∧ isStrB v then some (.str (normalize_duration (getStr v)))
  else if k = "kind" ∧ v = .str "Task" then none
  else if k = "type" ∧ v = .str "string" then none
  else if k = "apiVersion" ∧ v = .str "tekton.dev/v1" then
    some (.str "tekton.dev/v1beta1")
  else if k = "metadata" ∧ v = .map .nil then none
  else if k = "computeResources" ∧ v = .map .nil then none
  else if k = "spec" ∧ v = .null then none
  else if k = "name" ∧ v = .str "" then none
  else if k = "value" ∧ isStrB v then
    match json_loads (getStr v) with
    | some jv => some jv
    | none => some (.str (getStr v))
  else some w

/-- Rebuild the entries of a dict, applying the rule table with `w` as the
recursive transform. -/
def walkEntriesW (w : Yaml → Yaml) : Entries → Entries
  | .nil => .nil
  | .cons k v rest =>
    match ruleVal k v (w v) with
    | none => walkEntriesW w rest
    | some nv => .cons k nv (walkEntriesW w rest)

def walkItemsW (w : Yaml → Yaml) : Items → Items
  | .nil => .nil
  | .cons v rest => .cons (w v) (walkItemsW w rest)

/-- The six deletion paths walk passes to delete_recursive, in source
order, already split at the commas. -/
def deletionPaths : List (List String) :=
  [["metadata", "creationTimestamp"],
   ["metadata", "generation"],
   ["metadata", "labels", "paas.redhat.com/appcode"],
   ["metadata", "namespace"],
   ["metadata", "resourceVersion"],
   ["metadata", "uid"]]

/-- Apply a sequence of deletion paths in order (the six delete_recursive
calls walk performs at a dict node). -/
def deleteSeq (ps : List (List String)) (o : Yaml) : Yaml :=
  ps.foldl (fun a p => (delete_recursive p a).1) o

def deleteAll (o : Yaml) : Yaml := deleteSeq deletionPaths o

def entriesOf : Yaml → Entries
  | .map es => es
  | _ => .nil

/-- walk on structural fuel: at a dict node the six deletions run first
(in place in the source; here producing the entry list the rebuild then
iterates), then each entry goes through the rule table; lists are rebuilt
elementwise; scalars pass through. -/
def walkF : Nat → Yaml → Yaml
  | 0, o => o
  | fuel + 1, o =>
    match o with
    | .map es => .map (walkEntriesW (walkF fuel) (entriesOf (deleteAll (.map es))))
    | .list xs => .list (walkItemsW (walkF fuel) xs)
    | x => x

def walk (o : Yaml) : Yaml := walkF (ysize o) o

/-- process_stream on a parsed stream: each document is transformed
independently and re-emitted in order.  (yaml.safe_load_all and
safe_dump_all are modelled by representing the stream by its list of
parsed documents.) -/
def process_stream (docs : List Yaml) : List Yaml := docs.map walk

/-! ### Fuel adequacy for walk -/

theorem deleteSeq_size (ps : List (List String)) :
    ∀ o, ysize (deleteSeq ps o) ≤ ysize o := by
  induction ps with
  | nil => intro o; simp [deleteSeq]
  | cons p ps ih =>
    intro o
    have h1 := delete_recursive_size p o
    have h2 := ih (delete_recursive p o).1
    simp only [deleteSeq, List.foldl_cons] at *
    omega

theorem deleteAll_size (o : Yaml) : ysize (deleteAll o) ≤ ysize o :=
  deleteSeq_size deletionPaths o

theorem entriesOf_size (o : Yaml) : ysizeE (entriesOf o) + 1 ≤ ysize o := by
  cases o <;> simp [entriesOf, ysize, ysizeE]

theorem walkEntriesW_congr (w1 w2 : Yaml → Yaml) :
    (es : Entries) → (∀ v, ysize v ≤ ysizeE es → w1 v = w2 v) →
    walkEntriesW w1 es = walkEntriesW w2 es
  | .nil, _ => rfl
  | .cons k v rest, h => by
    have hv : w1 v = w2 v := h v (by simp [ysizeE]; omega)
    have hrest : walkEntriesW w1 rest = walkEntriesW w2 rest :=
      walkEntriesW_congr w1 w2 rest fun x hx =>
        h x (by simp [ysizeE] at *; omega)
    simp [walkEntriesW, hv, hrest]

theorem walkItemsW_congr (w1 w2 : Yaml → Yaml) :
    (xs : Items) → (∀ v, ysize v ≤ ysizeI xs → w1 v = w2 v) →
    walkItemsW w1 xs = walkItemsW w2 xs
  | .nil, _ => rfl
  | .cons v rest, h => by
    have hv : w1 v = w2 v := h v (by simp [ysizeI]; omega)
    have hrest : walkItemsW w1 rest = walkItemsW w2 rest :=
      walkItemsW_congr w1 w2 rest fun x hx =>
        h x (by simp [ysizeI] at *; omega)
    simp [walkItemsW, hv, hrest]

theorem walkF_fuel (f : Nat) :
    ∀ g o, ysize o ≤ f → ysize o ≤ g → walkF f o = walkF g o := by
  induction f with
  | zero =>
    intro g o hf _
    have := ysize_pos o
    omega
  | succ f ih =>
    intro g o hf hg
    cases g with
    | zero =>
      have := ysize_pos o
      omega
    | succ g =>
      cases o with
      | map es =>
        have hesf : ysizeE es ≤ f := by simp [ysize] at hf; omega
        have hesg : ysizeE es ≤ g := by simp [ysize] at hg; omega
        have hdel : ysizeE (entriesOf (deleteAll (.map es))) ≤ ysizeE es := by
          have h1 := deleteAll_size (Yaml.map es)
          have h2 := entriesOf_size (deleteAll (.map es))
          simp [ysize] at h1
          omega
        have e : walkEntriesW (walkF f) (entriesOf (deleteAll (.map es)))
            = walkEntriesW (walkF g) (entriesOf (deleteAll (.map es))) :=
          walkEntriesW_congr _ _ _ fun v hv =>
            ih g v ((hv.trans hdel).trans hesf) ((hv.trans hdel).trans hesg)
        simp only [walkF, e]
      | list xs =>
        have hxf : ysizeI xs ≤ f := by simp [ysize] at hf; omega
        have hxg : ysizeI xs ≤ g := by simp [ysize] at hg; omega
        have e : walkItemsW (walkF f) xs = walkItemsW (walkF g) xs :=
          walkItemsW_congr _ _ xs fun v hv =>
            ih g v (hv.trans hxf) (hv.trans hxg)
        simp only [walkF, e]
      | str s => rfl
      | int n => rfl
      | bool b => rfl
      | null => rfl

theorem walk_def (o : Yaml) (f : Nat) (hf : ysize o ≤ f) :
    walk o = walkF f o :=
  walkF_fuel (ysize o) f o le_rfl hf

/-- The recursion equation of walk at a dict node. -/
theorem walk_map (es : Entries) :
    walk (.map es) = .map (walkEntriesW walk (entriesOf (deleteAll (.map es)))) := by
  have h0 : walk (.map es) = walkF (ysizeE es + 1) (.map es) := rfl
  rw [h0]
  have hdel : ysizeE (entriesOf (deleteAll (.map es))) ≤ ysizeE es := by
    have h1 := deleteAll_size (Yaml.map es)
    have h2 := entriesOf_size (deleteAll (.map es))
    simp [ysize] at h1
    omega
  have e : walkEntriesW (walkF (ysizeE es)) (entriesOf (deleteAll (.map es)))
      = walkEntriesW walk (entriesOf (deleteAll (.map es))) :=
    walkEntriesW_congr _ _ _ fun v hv =>
      ((walk_def v (ysizeE es) (hv.trans hdel)).symm)
  simp only [walkF, e]

/-- The recursion equation of walk at a list node. -/
theorem walk_list (xs : Items) :
    walk (.list xs) = .list (walkItemsW walk xs) := by
  have h0 : walk (.list xs) = walkF (ysizeI xs + 1) (.list xs) := rfl
  rw [h0]
  have e : walkItemsW (walkF (ysizeI xs)) xs = walkItemsW walk xs :=
    walkItemsW_congr _ _ xs fun v hv => (walk_def v (ysizeI xs) hv).symm
  simp only [walkF, e]

theorem walk_str (s : String) : walk (.str s) = .str s := rfl

theorem walk_int (n : Int) : walk (.int n) = .int n := rfl

theorem walk_bool (b : Bool) : walk (.bool b) = .bool b := rfl

theorem walk_null : walk .null = .null := rfl

/-! ### Helper equations for small documents -/

theorem delete_recursive_str (parts : List String) (s : String) :
    delete_recursive parts (.str s) = (.str s, 0) :=
  delete_recursive_scalar parts _ (fun _ h => Yaml.noConfusion h)
    (fun _ h => Yaml.noConfusion h)

theorem delete_recursive_single_str (head : String) (tail : List String)
    (k s : String) (hk : k ≠ head) :
    delete_recursive (head :: tail) (.map (.cons k (.str s) .nil))
      = (.map (.cons k (.str s) .nil), 0) := by
  rw [delete_recursive_map]
  have h1 : hasKey head (.cons k (.str s) .nil) = false := by
    simp [hasKey, hk]
  simp [h1, mapVals, delete_recursive_str]

theorem deleteAll_single_str (k s : String) (hk : k ≠ "metadata") :
    deleteAll (.map (.cons k (.str s) .nil)) = .map (.cons k (.str s) .nil) := by
  show deleteSeq deletionPaths (.map (.cons k (.str s) .nil)) = _
  simp [deleteSeq, deletionPaths, List.foldl,
    delete_recursive_single_str _ _ _ _ hk]

theorem ruleVal_value_str (s : String) (w : Yaml) :
    ruleVal "value" (.str s) w =
      match json_loads s with
      | some jv => some jv
      | none => some (.str s) := rfl

theorem ruleVal_value_str_none (s : String) (w : Yaml)
    (h : json_loads s = none) :
    ruleVal "value" (.str s) w = some (.str s) := by
  rw [ruleVal_value_str, h]

theorem ruleVal_apiVersion_other (t : String) (w : Yaml)
    (h : t ≠ "tekton.dev/v1") :
    ruleVal "apiVersion" (.str t) w = some w := by
  simp [ruleVal, h]

/-- C3: a `value` key holding the string "42" rewrites to the integer 42,
holding a JSON object string rewrites to the parsed mapping, and a string
that is not valid JSON is kept unchanged: the parse failure is swallowed
locally (json_loads returns none, walk keeps the original string) and
never propagates. -/
theorem claim_C3_value_json_recovery :
    walk (.map (.cons "value" (.str "42") .nil))
        = .map (.cons "value" (.int 42) .nil) ∧
    walk (.map (.cons "value" (.str "\x7b\"a\":1\x7d") .nil))
        = .map (.cons "value" (.map (.cons "a" (.int 1) .nil)) .nil) ∧
    walk (.map (.cons "value" (.str "not json") .nil))
        = .map (.cons "value" (.str "not json") .nil) ∧
    ∀ s : String, json_loads s = none →
      walk (.map (.cons "value" (.str s) .nil))
        = .map (.cons "value" (.str s) .nil) := by
  refine ⟨by decide, by decide, by decide, ?_⟩
  intro s h
  rw [walk_map, deleteAll_single_str "value" s (by decide)]
  simp [entriesOf, walkEntriesW, ruleVal_value_str_none s _ h]

theorem claim_C3_value_json_recovery_witness :
    json_loads "not json" = none ∧
      walk (.map (.cons "value" (.str "not json") .nil))
        = .map (.cons "value" (.str "not json") .nil) :=
  ⟨by decide, claim_C3_value_json_recovery.2.2.2 "not json" (by decide)⟩

/-- C7: the apiVersion rule fires only on the exact old value: the entry
apiVersion: "tekton.dev/v1" rewrites to "tekton.dev/v1beta1", while any
other string value (in particular "tekton.dev/v1beta1") is left
unchanged. -/
theorem claim_C7_apiVersion_exact_match :
    walk (.map (.cons "apiVersion" (.str "tekton.dev/v1") .nil))
        = .map (.cons "apiVersion" (.str "tekton.dev/v1beta1") .nil) ∧
    ∀ t : String, t ≠ "tekton.dev/v1" →
      walk (.map (.cons "apiVersion" (.str t) .nil))
        = .map (.cons "apiVersion" (.str t) .nil) := by
  refine ⟨by decide, ?_⟩
  intro t ht
  rw [walk_map, deleteAll_single_str "apiVersion" t (by decide)]
  simp [entriesOf, walkEntriesW, ruleVal_apiVersion_other t _ ht, walk_str]

theorem claim_C7_apiVersion_exact_match_witness :
    ("tekton.dev/v1beta1" : String) ≠ "tekton.dev/v1" ∧
      walk (.map (.cons "apiVersion" (.str "tekton.dev/v1beta1") .nil))
        = .map (.cons "apiVersion" (.str "tekton.dev/v1beta1") .nil) :=
  ⟨by decide, claim_C7_apiVersion_exact_match.2 "tekton.dev/v1beta1" (by decide)⟩

/-- C10: structures produced by JSON-parsing a `value` string are inserted
verbatim and bypass the current pass: a parsed kind: "Task" mapping
survives inside the output although the rules drop such an entry from an
ordinary mapping, and a parsed metadata.uid subtree survives although the
deletion pass removes such keys from ordinary mappings. -/
theorem claim_C10_json_insertion_bypass :
    walk (.map (.cons "value" (.str "\x7b\"kind\": \"Task\"\x7d") .nil))
        = .map (.cons "value" (.map (.cons "kind" (.str "Task") .nil)) .nil) ∧
    walk (.map (.cons "kind" (.str "Task") .nil)) = .map .nil ∧
    walk (.map (.cons "value" (.str "\x7b\"metadata\": \x7b\"uid\": 1\x7d\x7d") .nil))
        = .map (.cons "value"
            (.map (.cons "metadata" (.map (.cons "uid" (.int 1) .nil)) .nil)) .nil) ∧
    walk (.map (.cons "metadata" (.map (.cons "uid" (.int 1) .nil)) .nil))
        = .map .nil := by
  refine ⟨by decide, by decide, by decide, by decide⟩

/-- C8: a stream of N parsed documents is processed into exactly N output
documents, each the transform of the corresponding input document, in the
original order. -/
theorem claim_C8_multidoc_preservation (docs : List Yaml) :
    (process_stream docs).length = docs.length ∧
    ∀ i : Nat, (process_stream docs).get? i = (docs.get? i).map walk := by
  constructor
  · simp [process_stream]
  · intro i
    simp [process_stream]

/-! ## Idempotence of the pipeline

The full pipeline is not idempotent: the value/JSON rule can require a
second pass to reach a fixpoint (a JSON string parsing to a string that
itself parses as JSON), the metadata/computeResources emptying rules can
drop in pass two a mapping that pass one emptied, and the early return of
delete_recursive can leave occurrences that the next pass removes.  On
documents free of string-valued `value` entries and of `metadata` and
`computeResources` entries, one walk is a fixpoint. -/

mutual
/-- Documents avoiding the three non-idempotent features: no string-valued
`value` entry, no `metadata` entry, no `computeResources` entry, at any
depth. -/
def cleanY : Yaml → Bool
  | .map es => cleanE es
  | .list xs => cleanI xs
  | _ => true

def cleanE : Entries → Bool
  | .nil => true
  | .cons k v rest =>
    !(k == "value" && isStrB v) && !(k == "metadata") &&
      !(k == "computeResources") && cleanY v && cleanE rest

def cleanI : Items → Bool
  | .nil => true
  | .cons v rest => cleanY v && cleanI rest
end

theorem cleanE_cons_iff (k : String) (v : Yaml) (rest : Entries) :
    cleanE (.cons k v rest) = true ↔
      ¬(k = "value" ∧ isStrB v = true) ∧ k ≠ "metadata" ∧
        k ≠ "computeResources" ∧ cleanY v = true ∧ cleanE rest = true := by
  simp [cleanE]
  tauto

theorem cleanI_cons_iff (v : Yaml) (rest : Items) :
    cleanI (.cons v rest) = true ↔ cleanY v = true ∧ cleanI rest = true := by
  simp [cleanI]

theorem clean_no_metadata : (es : Entries) → cleanE es = true →
    hasKey "metadata" es = false
  | .nil, _ => rfl
  | .cons k v rest, h => by
    obtain ⟨h1, h2, h3, h4, h5⟩ := (cleanE_cons_iff k v rest).1 h
    simp [hasKey, h2, clean_no_metadata rest h5]

mutual
theorem remove_noop_y : (o : Yaml) → ∀ tail, cleanY o = true →
    delete_recursive ("metadata" :: tail) o = (o, 0)
  | .map es, tail, h => by
    rw [delete_recursive_map]
    have hm : hasKey "metadata" es = false := clean_no_metadata es (by simpa [cleanY] using h)
    simp [hm, remove_noop_e es tail (by simpa [cleanY] using h)]
  | .list xs, tail, h => by
    rw [delete_recursive_list]
    simp [remove_noop_i xs tail (by simpa [cleanY] using h)]
  | .str s, tail, h => delete_recursive_str _ s
  | .int n, tail, h =>
    delete_recursive_scalar _ _ (fun _ hc => Yaml.noConfusion hc)
      (fun _ hc => Yaml.noConfusion hc)
  | .bool b, tail, h =>
    delete_recursive_scalar _ _ (fun _ hc => Yaml.noConfusion hc)
      (fun _ hc => Yaml.noConfusion hc)
  | .null, tail, h =>
    delete_recursive_scalar _ _ (fun _ hc => Yaml.noConfusion hc)
      (fun _ hc => Yaml.noConfusion hc)

theorem remove_noop_e : (es : Entries) → ∀ tail, cleanE es = true →
    mapVals (delete_recursive ("metadata" :: tail)) es = (es, 0)
  | .nil, tail, _ => rfl
  | .cons k v rest, tail, h => by
    obtain ⟨h1, h2, h3, hv, hrest⟩ := (cleanE_cons_iff k v rest).1 h
    simp [mapVals, remove_noop_y v tail hv, remove_noop_e rest tail hrest]

theorem remove_noop_i : (xs : Items) → ∀ tail, cleanI xs = true →
    mapItemsC (delete_recursive ("metadata" :: tail)) xs = (xs, 0)
  | .nil, tail, _ => rfl
  | .cons v rest, tail, h => by
    obtain ⟨hv, hrest⟩ := (cleanI_cons_iff v rest).1 h
    simp [mapItemsC, remove_noop_y v tail hv, remove_noop_i rest tail hrest]
end

theorem deleteAll_noop (o : Yaml) (h : cleanY o = true) : deleteAll o = o := by
  show deleteSeq deletionPaths o = o
  simp [deleteSeq, deletionPaths, List.foldl,
    remove_noop_y o _ h]

/-! ### Shape lemmas for walk -/

theorem walk_eq_str_iff (v : Yaml) (t : String) :
    walk v = .str t ↔ v = .str t := by
  cases v <;> simp [walk_str, walk_int, walk_bool, walk_null, walk_map, walk_list]

theorem walk_eq_null_iff (v : Yaml) : walk v = .null ↔ v = .null := by
  cases v <;> simp [walk_str, walk_int, walk_bool, walk_null, walk_map, walk_list]

theorem isStrB_walk (v : Yaml) : isStrB (walk v) = isStrB v := by
  cases v <;> simp [isStrB, walk_str, walk_int, walk_bool, walk_null, walk_map, walk_list]

theorem walkEntriesW_cons (w : Yaml → Yaml) (k : String) (v : Yaml)
    (rest : Entries) :
    walkEntriesW w (.cons k v rest) =
      match ruleVal k v (w v) with
      | none => walkEntriesW w rest
      | some nv => .cons k nv (walkEntriesW w rest) := rfl

theorem ruleVal_default (k : String) (v w : Yaml)
    (h1 : ¬(k = "timeout" ∧ isStrB v = true))
    (h2 : ¬(k = "kind" ∧ v = .str "Task"))
    (h3 : ¬(k = "type" ∧ v = .str "string"))
    (h4 : ¬(k = "apiVersion" ∧ v = .str "tekton.dev/v1"))
    (h5 : ¬(k = "metadata" ∧ v = .map .nil))
    (h6 : ¬(k = "computeResources" ∧ v = .map .nil))
    (h7 : ¬(k = "spec" ∧ v = .null))
    (h8 : ¬(k = "name" ∧ v = .str ""))
    (h9 : ¬(k = "value" ∧ isStrB v = true)) :
    ruleVal k v w = some w := by
  unfold ruleVal
  rw [if_neg h1, if_neg h2, if_neg h3, if_neg h4, if_neg h5, if_neg h6,
    if_neg h7, if_neg h8, if_neg h9]

/-! ### walk preserves cleanliness -/

mutual
theorem clean_pres_y : (o : Yaml) → cleanY o = true → cleanY (walk o) = true
  | .map es, h => by
    rw [walk_map, deleteAll_noop _ h]
    simpa [cleanY, entriesOf] using clean_pres_e es (by simpa [cleanY] using h)
  | .list xs, h => by
    rw [walk_list]
    simpa [cleanY] using clean_pres_i xs (by simpa [cleanY] using h)
  | .str s, h => h
  | .int n, h => h
  | .bool b, h => h
  | .null, h => h

theorem clean_pres_e : (es : Entries) →
    cleanE es = true → cleanE (walkEntriesW walk es) = true
  | .nil, _ => rfl
  | .cons k v rest, h => by
    obtain ⟨h1, h2, h3, hv, hrest⟩ := (cleanE_cons_iff k v rest).1 h
    have ihrest := clean_pres_e rest hrest
    have ihv := clean_pres_y v hv
    rw [walkEntriesW_cons]
    unfold ruleVal
    split_ifs with c1 c2 c3 c4 c5 c6 c7 c8
    · refine (cleanE_cons_iff _ _ _).2 ⟨?_, h2, h3, rfl, ihrest⟩
      rintro ⟨hk, -⟩
      rw [hk] at c1
      simp at c1
    · exact ihrest
    · exact ihrest
    · refine (cleanE_cons_iff _ _ _).2 ⟨?_, h2, h3, rfl, ihrest⟩
      rintro ⟨hk, -⟩
      rw [hk] at c4
      simp at c4
    · exact ihrest
    · exact ihrest
    · exact ihrest
    · exact ihrest
    · refine (cleanE_cons_iff _ _ _).2 ⟨?_, h2, h3, ihv, ihrest⟩
      rintro ⟨hk, hs⟩
      rw [isStrB_walk] at hs
      exact h1 ⟨hk, hs⟩

theorem clean_pres_i : (xs : Items) →
    cleanI xs = true → cleanI (walkItemsW walk xs) = true
  | .nil, _ => rfl
  | .cons v rest, h => by
    obtain ⟨hv, hrest⟩ := (cleanI_cons_iff v rest).1 h
    exact (cleanI_cons_iff _ _).2 ⟨clean_pres_y v hv, clean_pres_i rest hrest⟩
end

/-! ### walk is idempotent on clean documents -/

mutual
theorem walk_idem_y : (o : Yaml) → cleanY o = true → walk (walk o) = walk o
  | .map es, h => by
    have hE : cleanE es = true := by simpa [cleanY] using h
    have e1 : walk (.map es) = .map (walkEntriesW walk es) := by
      rw [walk_map, deleteAll_noop _ h]
      rfl
    rw [e1]
    have hclean1 : cleanY (.map (walkEntriesW walk es)) = true := by
      simpa [cleanY] using clean_pres_e es hE
    rw [walk_map, deleteAll_noop _ hclean1]
    show Yaml.map (walkEntriesW walk (walkEntriesW walk es)) = _
    rw [walk_idem_e es hE]
  | .list xs, h => by
    have hI : cleanI xs = true := by simpa [cleanY] using h
    rw [walk_list, walk_list, walk_idem_i xs hI]
  | .str s, _ => rfl
  | .int n, _ => rfl
  | .bool b, _ => rfl
  | .null, _ => rfl

theorem walk_idem_e : (es : Entries) → cleanE es = true →
    walkEntriesW walk (walkEntriesW walk es) = walkEntriesW walk es
  | .nil, _ => rfl
  | .cons k v rest, h => by
    obtain ⟨h1, h2, h3, hv, hrest⟩ := (cleanE_cons_iff k v rest).1 h
    have ihrest := walk_idem_e rest hrest
    have ihv := walk_idem_y v hv
    rw [walkEntriesW_cons]
    unfold ruleVal
    split_ifs with c1 c2 c3 c4 c5 c6 c7 c8
    · obtain ⟨hk, hs⟩ := c1
      subst hk
      show walkEntriesW walk
          (.cons "timeout" (.str (normalize_duration (getStr v)))
            (walkEntriesW walk rest)) = _
      rw [walkEntriesW_cons]
      have e : ruleVal "timeout" (.str (normalize_duration (getStr v)))
          (walk (.str (normalize_duration (getStr v))))
          = some (.str (normalize_duration
              (getStr (.str (normalize_duration (getStr v)))))) := by
        unfold ruleVal
        rw [if_pos ⟨rfl, rfl⟩]
      rw [e]
      show Entries.cons "timeout"
          (.str (normalize_duration (normalize_duration (getStr v))))
          (walkEntriesW walk (walkEntriesW walk rest)) = _
      rw [normalize_duration_idem, ihrest]
    · exact ihrest
    · exact ihrest
    · obtain ⟨hk, hveq⟩ := c4
      subst hk
      show walkEntriesW walk
          (.cons "apiVersion" (.str "tekton.dev/v1beta1")
            (walkEntriesW walk rest)) = _
      rw [walkEntriesW_cons,
        ruleVal_apiVersion_other _ _ (by decide), walk_str, ihrest]
    · exact ihrest
    · exact ihrest
    · exact ihrest
    · exact ihrest
    · show walkEntriesW walk (.cons k (walk v) (walkEntriesW walk rest)) = _
      rw [walkEntriesW_cons]
      have e : ruleVal k (walk v) (walk (walk v)) = some (walk (walk v)) := by
        refine ruleVal_default k (walk v) _ ?_ ?_ ?_ ?_ ?_ ?_ ?_ ?_ ?_
        · rintro ⟨hk, hs⟩
          rw [isStrB_walk] at hs
          exact c1 ⟨hk, hs⟩
        · rintro ⟨hk, hs⟩
          rw [walk_eq_str_iff] at hs
          exact c2 ⟨hk, hs⟩
        · rintro ⟨hk, hs⟩
          rw [walk_eq_str_iff] at hs
          exact c3 ⟨hk, hs⟩
        · rintro ⟨hk, hs⟩
          rw [walk_eq_str_iff] at hs
          exact c4 ⟨hk, hs⟩
        · rintro ⟨hk, -⟩
          exact h2 hk
        · rintro ⟨hk, -⟩
          exact h3 hk
        · rintro ⟨hk, hs⟩
          rw [walk_eq_null_iff] at hs
          exact c7 ⟨hk, hs⟩
        · rintro ⟨hk, hs⟩
          rw [walk_eq_str_iff] at hs
          exact c8 ⟨hk, hs⟩
        · rintro ⟨hk, hs⟩
          rw [isStrB_walk] at hs
          exact h1 ⟨hk, hs⟩
      rw [e, ihv, ihrest]

theorem walk_idem_i : (xs : Items) → cleanI xs = true →
    walkItemsW walk (walkItemsW walk xs) = walkItemsW walk xs
  | .nil, _ => rfl
  | .cons v rest, h => by
    obtain ⟨hv, hrest⟩ := (cleanI_cons_iff v rest).1 h
    show Items.cons (walk (walk v)) (walkItemsW walk (walkItemsW walk rest)) = _
    rw [walk_idem_y v hv, walk_idem_i rest hrest]
    rfl
end

/-- C1 fails on the code: running the normalizer twice is not
byte-identical to running it once.  A document whose `value` key holds
the JSON string "\x22 42\x22" (a quoted number) parses to the string "42" in
pass one; pass two then parses that to the integer 42, so the second run
changes the output stream again. -/
theorem claim_C1_pipeline_idempotence_cex :
    process_stream (process_stream [.map (.cons "value" (.str "\"42\"") .nil)])
      ≠ process_stream [.map (.cons "value" (.str "\"42\"") .nil)] := by
  decide

/-- C1 amended: the pipeline is idempotent on document streams that avoid
the non-idempotent features: no string-valued `value` entry (whose JSON
parse can require further passes), and no `metadata` or `computeResources`
entry (whose emptying rules and in-walk deletions can act again on the
previous pass's output). -/
theorem claim_C1_pipeline_idempotence_amended (docs : List Yaml)
    (h : ∀ d ∈ docs, cleanY d = true) :
    process_stream (process_stream docs) = process_stream docs := by
  show (docs.map walk).map walk = docs.map walk
  rw [List.map_map]
  exact List.map_congr_left fun d hd => walk_idem_y d (h d hd)

theorem claim_C1_pipeline_idempotence_amended_witness :
    (∀ d ∈ [Yaml.map (.cons "timeout" (.str "15m0s")
        (.cons "kind" (.str "Task") .nil))], cleanY d = true) ∧
      process_stream (process_stream [Yaml.map (.cons "timeout" (.str "15m0s")
          (.cons "kind" (.str "Task") .nil))])
        = process_stream [Yaml.map (.cons "timeout" (.str "15m0s")
            (.cons "kind" (.str "Task") .nil))] :=
  ⟨by decide, claim_C1_pipeline_idempotence_amended _ (by decide)⟩

/-! ## Occurrences of a deletion path

A deletion path `k1.k2...kn` occurs at a mapping node when following the
keys through nested mappings from that node reaches an entry for the
terminal key; it occurs in a document when it occurs at any mapping node
of the document (including nodes inside sequences). -/

def toListE : Entries → List (String × Yaml)
  | .nil => []
  | .cons k v rest => (k, v) :: toListE rest

mutual
/-- The direct chain of the path exists starting at this node. -/
def chainHolds : List String → Yaml → Bool
  | [], _ => true
  | k :: rest, .map es => entChain k rest es
  | _ :: _, _ => false

def entChain (k : String) (rest : List String) : Entries → Bool
  | .nil => false
  | .cons k' v es' =>
    (k' == k && (match rest with
      | [] => true
      | _ :: _ => chainHolds rest v)) || entChain k rest es'
end

mutual
/-- The path occurs somewhere in the document. -/
def occY (p : List String) : Yaml → Bool
  | .map es => chainHolds p (.map es) || occE p es
  | .list xs => occI p xs
  | _ => false

def occE (p : List String) : Entries → Bool
  | .nil => false
  | .cons _ v rest => occY p v || occE p rest

def occI (p : List String) : Items → Bool
  | .nil => false
  | .cons v rest => occY p v || occI p rest
end

/-- No two entries of a dict share a key (always true of a parsed YAML or
JSON mapping and of a Python dict). -/
def keysDistinct : Entries → Bool
  | .nil => true
  | .cons k _ rest => !hasKey k rest && keysDistinct rest

mutual
/-- Every mapping in the document has pairwise distinct keys. -/
def ndY : Yaml → Bool
  | .map es => keysDistinct es && ndE es
  | .list xs => ndI xs
  | _ => true

def ndE : Entries → Bool
  | .nil => true
  | .cons _ v rest => ndY v && ndE rest

def ndI : Items → Bool
  | .nil => true
  | .cons v rest => ndY v && ndI rest
end

mutual
/-- No mapping in the document has a string-valued `value` entry (so the
JSON insertion rule never fires). -/
def nvY : Yaml → Bool
  | .map es => nvE es
  | .list xs => nvI xs
  | _ => true

def nvE : Entries → Bool
  | .nil => true
  | .cons k v rest => !(k == "value" && isStrB v) && nvY v && nvE rest

def nvI : Items → Bool
  | .nil => true
  | .cons v rest => nvY v && nvI rest
end

/-! ### Basic bridges between entries and lists -/

theorem hasKey_iff_mem (k : String) : (es : Entries) →
    (hasKey k es = true ↔ ∃ v, (k, v) ∈ toListE es)
  | .nil => by simp [hasKey, toListE]
  | .cons k' v rest => by
    by_cases hk : k' = k
    · subst hk
      simp [hasKey, toListE]
    · have hk2 : ¬ k = k' := fun h => hk h.symm
      simp [hasKey, hk, toListE, hk2, Prod.ext_iff, hasKey_iff_mem k rest]

theorem entChain_nil_eq_hasKey (k : String) : (es : Entries) →
    entChain k [] es = hasKey k es
  | .nil => rfl
  | .cons k' v rest => by
    by_cases hk : k' = k <;>
      simp [entChain, hasKey, hk, entChain_nil_eq_hasKey k rest]


theorem entChain_cons_iff (k r : String) (rs : List String) : (es : Entries) →
    (entChain k (r :: rs) es = true ↔
      ∃ v, (k, v) ∈ toListE es ∧ chainHolds (r :: rs) v = true)
  | .nil => by simp [entChain, toListE]
  | .cons k' v rest => by
    by_cases hk : k' = k
    · subst hk
      simp [entChain, toListE, entChain_cons_iff k' r rs rest, Prod.ext_iff]
    · have hk2 : ¬ k = k' := fun h => hk h.symm
      simp [entChain, hk, toListE, hk2, Prod.ext_iff,
        entChain_cons_iff k r rs rest]

theorem toListE_mapVals (f : Yaml → Yaml × Nat) : (es : Entries) →
    toListE (mapVals f es).1 = (toListE es).map fun q => (q.1, (f q.2).1)
  | .nil => rfl
  | .cons k v rest => by
    simp [mapVals, toListE, toListE_mapVals f rest]

theorem mem_delKey (h : String) (k' : String) (v' : Yaml) : (es : Entries) →
    (k', v') ∈ toListE (delKey h es) → (k', v') ∈ toListE es
  | .nil, hm => hm
  | .cons k v rest, hm => by
    by_cases hk : k = h
    · simp only [delKey, if_pos hk] at hm
      simp [toListE, hm]
    · simp only [delKey, if_neg hk, toListE, List.mem_cons] at hm ⊢
      rcases hm with hm | hm
      · exact Or.inl hm
      · exact Or.inr (mem_delKey h k' v' rest hm)

theorem mem_mapAtKey (h : String) (f : Yaml → Yaml × Nat) (k' : String)
    (v' : Yaml) : (es : Entries) →
    (k', v') ∈ toListE (mapAtKey h f es).1 →
      (k', v') ∈ toListE es ∨
        (k' = h ∧ ∃ v, (h, v) ∈ toListE es ∧ v' = (f v).1)
  | .nil, hm => Or.inl hm
  | .cons k v rest, hm => by
    by_cases hk : k = h
    · subst hk
      simp only [mapAtKey, if_pos rfl, toListE, List.mem_cons] at hm
      rcases hm with hm | hm
      · rw [Prod.ext_iff] at hm
        obtain ⟨h1, h2⟩ := hm
        subst h1
        exact Or.inr ⟨rfl, v, by simp [toListE], h2⟩
      · simp [toListE, hm]
    · simp only [mapAtKey, if_neg hk, toListE, List.mem_cons] at hm ⊢
      rcases hm with hm | hm
      · exact Or.inl (Or.inl hm)
      · rcases mem_mapAtKey h f k' v' rest hm with hm2 | ⟨he, w, hw, hv⟩
        · exact Or.inl (Or.inr hm2)
        · exact Or.inr ⟨he, w, Or.inr hw, hv⟩

theorem hasKey_delKey_distinct (h : String) : (es : Entries) →
    keysDistinct es = true → hasKey h (delKey h es) = false
  | .nil, _ => rfl
  | .cons k v rest, hd => by
    simp only [keysDistinct, Bool.and_eq_true, Bool.not_eq_true'] at hd
    by_cases hk : k = h
    · subst hk
      simp [delKey, hd.1]
    · simp [delKey, hk, hasKey, hasKey_delKey_distinct h rest hd.2]

theorem hasKey_mapVals (f : Yaml → Yaml × Nat) (k : String) : (es : Entries) →
    hasKey k (mapVals f es).1 = hasKey k es
  | .nil => rfl
  | .cons k' v rest => by
    by_cases hk : k' = k <;>
      simp [mapVals, hasKey, hk, hasKey_mapVals f k rest]

theorem hasKey_mapAtKey (h : String) (f : Yaml → Yaml × Nat) (k : String) :
    (es : Entries) → hasKey k (mapAtKey h f es).1 = hasKey k es
  | .nil => rfl
  | .cons k' v rest => by
    unfold mapAtKey
    by_cases hh : k' = h
    · rw [if_pos hh]
      simp [hasKey]
    · rw [if_neg hh]
      simp [hasKey, hasKey_mapAtKey h f k rest]

theorem hasKey_delKey_other (h k : String) (hne : k ≠ h) : (es : Entries) →
    hasKey k (delKey h es) = hasKey k es
  | .nil => rfl
  | .cons k' v rest => by
    unfold delKey
    by_cases hh : k' = h
    · subst hh
      rw [if_pos rfl]
      have hne2 : k' ≠ k := fun hc => hne hc.symm
      simp [hasKey, hne2]
    · rw [if_neg hh]
      simp [hasKey, hasKey_delKey_other h k hne rest]

theorem keysDistinct_delKey (h : String) : (es : Entries) →
    keysDistinct es = true → keysDistinct (delKey h es) = true
  | .nil, _ => rfl
  | .cons k v rest, hd => by
    simp only [keysDistinct, Bool.and_eq_true, Bool.not_eq_true'] at hd
    by_cases hk : k = h
    · simp [delKey, hk, hd.2]
    · simp only [delKey, if_neg hk, keysDistinct, Bool.and_eq_true,
        Bool.not_eq_true']
      refine ⟨?_, keysDistinct_delKey h rest hd.2⟩
      by_cases hkh : k = h
      · exact absurd hkh hk
      · rw [hasKey_delKey_other h k hkh rest]
        exact hd.1

theorem keysDistinct_mapVals (f : Yaml → Yaml × Nat) : (es : Entries) →
    keysDistinct es = true → keysDistinct (mapVals f es).1 = true
  | .nil, _ => rfl
  | .cons k v rest, hd => by
    simp only [keysDistinct, Bool.and_eq_true, Bool.not_eq_true'] at hd
    simp only [mapVals, keysDistinct, Bool.and_eq_true, Bool.not_eq_true']
    exact ⟨by rw [hasKey_mapVals]; exact hd.1, keysDistinct_mapVals f rest hd.2⟩

theorem keysDistinct_mapAtKey (h : String) (f : Yaml → Yaml × Nat) :
    (es : Entries) → keysDistinct es = true →
      keysDistinct (mapAtKey h f es).1 = true
  | .nil, _ => rfl
  | .cons k v rest, hd => by
    simp only [keysDistinct, Bool.and_eq_true, Bool.not_eq_true'] at hd
    by_cases hk : k = h
    · simp only [mapAtKey, if_pos hk, keysDistinct, Bool.and_eq_true,
        Bool.not_eq_true']
      exact ⟨hd.1, hd.2⟩
    · simp only [mapAtKey, if_neg hk, keysDistinct, Bool.and_eq_true,
        Bool.not_eq_true']
      exact ⟨by rw [hasKey_mapAtKey]; exact hd.1,
        keysDistinct_mapAtKey h f rest hd.2⟩

theorem entChain_mono (k : String) (rest : List String) (es es' : Entries)
    (hmem : ∀ k' v', (k', v') ∈ toListE es' →
      ∃ v, (k', v) ∈ toListE es ∧
        (chainHolds rest v' = true → chainHolds rest v = true)) :
    entChain k rest es' = true → entChain k rest es = true := by
  cases rest with
  | nil =>
    rw [entChain_nil_eq_hasKey, entChain_nil_eq_hasKey]
    intro h
    obtain ⟨v', hv'⟩ := (hasKey_iff_mem k es').1 h
    obtain ⟨v, hv, -⟩ := hmem k v' hv'
    exact (hasKey_iff_mem k es).2 ⟨v, hv⟩
  | cons r rs =>
    intro h
    obtain ⟨v', hv', hc⟩ := (entChain_cons_iff k r rs es').1 h
    obtain ⟨v, hv, himp⟩ := hmem k v' hv'
    exact (entChain_cons_iff k r rs es).2 ⟨v, hv, himp hc⟩

/-- Deletion can only destroy chains, never create them. -/
theorem removeF_chain_mono (fuel : Nat) :
    ∀ parts o p, chainHolds p ((removeF fuel parts o).1) = true →
      chainHolds p o = true := by
  induction fuel with
  | zero =>
    intro parts o p hc
    exact hc
  | succ fuel ih =>
    intro parts o p hc
    cases parts with
    | nil =>
      rw [removeF_nil_parts] at hc
      exact hc
    | cons head tail =>
      cases o with
      | str s => exact hc
      | int n => exact hc
      | bool b => exact hc
      | null => exact hc
      | list xs =>
        cases p with
        | nil => rfl
        | cons k rest =>
          rw [removeF_list] at hc
          simp [chainHolds] at hc
      | map es =>
        cases p with
        | nil => rfl
        | cons k rest =>
          rw [removeF_map] at hc
          by_cases hk : hasKey head es
          · by_cases ht : tail.isEmpty
            · rw [if_pos hk, if_pos ht] at hc
              show entChain k rest es = true
              refine entChain_mono k rest es (delKey head es) ?_ hc
              intro k' v' hm
              exact ⟨v', mem_delKey head k' v' es hm, fun h => h⟩
            · rw [if_pos hk, if_neg ht] at hc
              show entChain k rest es = true
              refine entChain_mono k rest es
                (mapVals (removeF fuel (head :: tail))
                  (mapAtKey head (removeF fuel tail) es).1).1 ?_ hc
              intro k' v2 hm
              rw [toListE_mapVals, List.mem_map] at hm
              obtain ⟨⟨k1, v1⟩, hm1, heq⟩ := hm
              obtain ⟨rfl, rfl⟩ := Prod.ext_iff.1 heq
              rcases mem_mapAtKey head (removeF fuel tail) k1 v1 es hm1 with
                hm0 | ⟨hke, v0, hm0, hv1⟩
              · exact ⟨v1, hm0, fun h =>
                  ih (head :: tail) v1 rest h⟩
              · subst hv1
                rw [hke]
                refine ⟨v0, hm0, fun h => ?_⟩
                exact ih tail v0 rest (ih (head :: tail) _ rest h)
          · rw [if_neg hk] at hc
            show entChain k rest es = true
            refine entChain_mono k rest es
              (mapVals (removeF fuel (head :: tail)) es).1 ?_ hc
            intro k' v2 hm
            rw [toListE_mapVals, List.mem_map] at hm
            obtain ⟨⟨k1, v1⟩, hm1, heq⟩ := hm
            obtain ⟨rfl, rfl⟩ := Prod.ext_iff.1 heq
            exact ⟨v1, hm1, fun h => ih (head :: tail) v1 rest h⟩

theorem ndE_iff_mem : (es : Entries) →
    (ndE es = true ↔ ∀ k v, (k, v) ∈ toListE es → ndY v = true)
  | .nil => by simp [ndE, toListE]
  | .cons k' v' rest => by
    simp [ndE, toListE, ndE_iff_mem rest, Prod.ext_iff]
    constructor
    · rintro ⟨h1, h2⟩ k v (⟨-, rfl⟩ | hm)
      · exact h1
      · exact h2 k v hm
    · intro h
      exact ⟨h k' v' (Or.inl ⟨rfl, rfl⟩), fun k v hm => h k v (Or.inr hm)⟩

theorem nvE_iff_mem : (es : Entries) →
    (nvE es = true ↔ ∀ k v, (k, v) ∈ toListE es →
      ¬(k = "value" ∧ isStrB v = true) ∧ nvY v = true)
  | .nil => by simp [nvE, toListE]
  | .cons k' v' rest => by
    simp only [nvE, toListE, Bool.and_eq_true, Bool.not_eq_true',
      nvE_iff_mem rest, List.mem_cons, Prod.ext_iff]
    constructor
    · rintro ⟨⟨h0, h1⟩, h2⟩ k v (⟨rfl, rfl⟩ | hm)
      · refine ⟨?_, h1⟩
        rintro ⟨rfl, hs⟩
        simp [hs] at h0
      · exact h2 k v hm
    · intro h
      refine ⟨⟨?_, (h k' v' (Or.inl ⟨rfl, rfl⟩)).2⟩,
        fun k v hm => h k v (Or.inr hm)⟩
      obtain ⟨hnv, -⟩ := h k' v' (Or.inl ⟨rfl, rfl⟩)
      cases hs : isStrB v' <;> simp
      intro hkv
      exact hnv ⟨hkv, hs⟩

theorem removeF_map_isMap (fuel : Nat) (parts : List String) (es : Entries) :
    ∃ es', (removeF fuel parts (.map es)).1 = .map es' := by
  cases fuel with
  | zero => exact ⟨es, rfl⟩
  | succ fuel =>
    cases parts with
    | nil => exact ⟨es, rfl⟩
    | cons head tail =>
      rw [removeF_map]
      by_cases hk : hasKey head es
      · by_cases ht : tail.isEmpty
        · rw [if_pos hk, if_pos ht]
          exact ⟨delKey head es, rfl⟩
        · rw [if_pos hk, if_neg ht]
          exact ⟨_, rfl⟩
      · rw [if_neg hk]
        exact ⟨_, rfl⟩

theorem isStrB_removeF (fuel : Nat) (parts : List String) (o : Yaml) :
    isStrB ((removeF fuel parts o).1) = isStrB o := by
  cases o with
  | map es =>
    obtain ⟨es', h⟩ := removeF_map_isMap fuel parts es
    rw [h]
    rfl
  | list xs =>
    cases fuel with
    | zero => rfl
    | succ fuel =>
      cases parts with
      | nil => rfl
      | cons head tail =>
        rw [removeF_list]
        rfl
  | str s => rw [removeF_scalar] <;> first | rfl | exact fun _ h => Yaml.noConfusion h
  | int n => rw [removeF_scalar] <;> first | rfl | exact fun _ h => Yaml.noConfusion h
  | bool b => rw [removeF_scalar] <;> first | rfl | exact fun _ h => Yaml.noConfusion h
  | null => rw [removeF_scalar] <;> first | rfl | exact fun _ h => Yaml.noConfusion h

theorem mapItemsC_nd (f : Yaml → Yaml × Nat)
    (hf : ∀ v, ndY v = true → ndY (f v).1 = true) : (xs : Items) →
    ndI xs = true → ndI (mapItemsC f xs).1 = true
  | .nil, h => h
  | .cons v rest, h => by
    simp only [ndI, Bool.and_eq_true] at h
    simp only [mapItemsC, ndI, Bool.and_eq_true]
    exact ⟨hf v h.1, mapItemsC_nd f hf rest h.2⟩

theorem ndY_map_iff (es : Entries) :
    ndY (.map es) = true ↔
      keysDistinct es = true ∧ ndE es = true := by
  simp [ndY]

/-- Deletion preserves key-distinctness of every mapping. -/
theorem removeF_nd (fuel : Nat) :
    ∀ parts o, ndY o = true → ndY ((removeF fuel parts o).1) = true := by
  induction fuel with
  | zero => intro parts o h; exact h
  | succ fuel ih =>
    intro parts o h
    cases parts with
    | nil =>
      rw [removeF_nil_parts]
      exact h
    | cons head tail =>
      cases o with
      | str s => exact h
      | int n => exact h
      | bool b => exact h
      | null => exact h
      | list xs =>
        rw [removeF_list]
        show ndI (mapItemsC (removeF fuel (head :: tail)) xs).1 = true
        exact mapItemsC_nd _ (fun v hv => ih (head :: tail) v hv) xs h
      | map es =>
        obtain ⟨hdist, hnde⟩ := (ndY_map_iff es).1 h
        rw [removeF_map]
        by_cases hk : hasKey head es
        · by_cases ht : tail.isEmpty
          · rw [if_pos hk, if_pos ht]
            refine (ndY_map_iff _).2 ⟨keysDistinct_delKey head es hdist, ?_⟩
            rw [ndE_iff_mem]
            intro k v hm
            exact (ndE_iff_mem es).1 hnde k v (mem_delKey head k v es hm)
          · rw [if_pos hk, if_neg ht]
            refine (ndY_map_iff _).2 ⟨?_, ?_⟩
            · exact keysDistinct_mapVals _ _
                (keysDistinct_mapAtKey head _ es hdist)
            · rw [ndE_iff_mem]
              intro k v2 hm
              rw [toListE_mapVals, List.mem_map] at hm
              obtain ⟨⟨k1, v1⟩, hm1, heq⟩ := hm
              obtain ⟨rfl, rfl⟩ := Prod.ext_iff.1 heq
              rcases mem_mapAtKey head (removeF fuel tail) k1 v1 es hm1 with
                hm0 | ⟨hke, v0, hm0, hv1⟩
              · exact ih (head :: tail) v1
                  ((ndE_iff_mem es).1 hnde k1 v1 hm0)
              · subst hv1
                exact ih (head :: tail) _
                  (ih tail v0 ((ndE_iff_mem es).1 hnde head v0 hm0))
        · rw [if_neg hk]
          refine (ndY_map_iff _).2 ⟨keysDistinct_mapVals _ es hdist, ?_⟩
          rw [ndE_iff_mem]
          intro k v2 hm
          rw [toListE_mapVals, List.mem_map] at hm
          obtain ⟨⟨k1, v1⟩, hm1, heq⟩ := hm
          obtain ⟨rfl, rfl⟩ := Prod.ext_iff.1 heq
          exact ih (head :: tail) v1 ((ndE_iff_mem es).1 hnde k1 v1 hm1)

theorem nvY_map_iff (es : Entries) : nvY (.map es) = true ↔ nvE es = true := by
  simp [nvY]

theorem mapItemsC_nv (f : Yaml → Yaml × Nat)
    (hf : ∀ v, nvY v = true → nvY (f v).1 = true) : (xs : Items) →
    nvI xs = true → nvI (mapItemsC f xs).1 = true
  | .nil, h => h
  | .cons v rest, h => by
    simp only [nvI, Bool.and_eq_true] at h
    simp only [mapItemsC, nvI, Bool.and_eq_true]
    exact ⟨hf v h.1, mapItemsC_nv f hf rest h.2⟩

/-- Deletion preserves the absence of string-valued `value` entries. -/
theorem removeF_nv (fuel : Nat) :
    ∀ parts o, nvY o = true → nvY ((removeF fuel parts o).1) = true := by
  induction fuel with
  | zero => intro parts o h; exact h
  | succ fuel ih =>
    intro parts o h
    cases parts with
    | nil =>
      rw [removeF_nil_parts]
      exact h
    | cons head tail =>
      cases o with
      | str s => exact h
      | int n => exact h
      | bool b => exact h
      | null => exact h
      | list xs =>
        rw [removeF_list]
        show nvI (mapItemsC (removeF fuel (head :: tail)) xs).1 = true
        exact mapItemsC_nv _ (fun v hv => ih (head :: tail) v hv) xs h
      | map es =>
        have hnve : nvE es = true := (nvY_map_iff es).1 h
        rw [removeF_map]
        by_cases hk : hasKey head es
        · by_cases ht : tail.isEmpty
          · rw [if_pos hk, if_pos ht]
            refine (nvY_map_iff _).2 ?_
            rw [nvE_iff_mem]
            intro k v hm
            exact (nvE_iff_mem es).1 hnve k v (mem_delKey head k v es hm)
          · rw [if_pos hk, if_neg ht]
            refine (nvY_map_iff _).2 ?_
            rw [nvE_iff_mem]
            intro k v2 hm
            rw [toListE_mapVals, List.mem_map] at hm
            obtain ⟨⟨k1, v1⟩, hm1, heq⟩ := hm
            obtain ⟨rfl, rfl⟩ := Prod.ext_iff.1 heq
            rcases mem_mapAtKey head (removeF fuel tail) k1 v1 es hm1 with
              hm0 | ⟨hke, v0, hm0, hv1⟩
            · obtain ⟨hnk, hnv⟩ := (nvE_iff_mem es).1 hnve k1 v1 hm0
              refine ⟨?_, ih (head :: tail) v1 hnv⟩
              rw [isStrB_removeF]
              exact hnk
            · subst hv1
              obtain ⟨hnk, hnv⟩ := (nvE_iff_mem es).1 hnve head v0 hm0
              refine ⟨?_, ih (head :: tail) _ (ih tail v0 hnv)⟩
              rw [isStrB_removeF, isStrB_removeF, hke]
              exact hnk
        · rw [if_neg hk]
          refine (nvY_map_iff _).2 ?_
          rw [nvE_iff_mem]
          intro k v2 hm
          rw [toListE_mapVals, List.mem_map] at hm
          obtain ⟨⟨k1, v1⟩, hm1, heq⟩ := hm
          obtain ⟨rfl, rfl⟩ := Prod.ext_iff.1 heq
          obtain ⟨hnk, hnv⟩ := (nvE_iff_mem es).1 hnve k1 v1 hm1
          refine ⟨?_, ih (head :: tail) v1 hnv⟩
          rw [isStrB_removeF]
          exact hnk

theorem entChain_hasKey (k : String) (rest : List String) (es : Entries)
    (h : entChain k rest es = true) : hasKey k es = true := by
  cases rest with
  | nil => rw [← entChain_nil_eq_hasKey]; exact h
  | cons r rs =>
    obtain ⟨v, hv, -⟩ := (entChain_cons_iff k r rs es).1 h
    exact (hasKey_iff_mem k es).2 ⟨v, hv⟩

theorem mem_mapAtKey_self (h : String) (f : Yaml → Yaml × Nat) :
    (es : Entries) → keysDistinct es = true →
    ∀ v1, (h, v1) ∈ toListE (mapAtKey h f es).1 →
      ∃ v0, (h, v0) ∈ toListE es ∧ v1 = (f v0).1
  | .nil, _, v1, hm => by simp [mapAtKey, toListE] at hm
  | .cons k v rest, hd, v1, hm => by
    simp only [keysDistinct, Bool.and_eq_true, Bool.not_eq_true'] at hd
    by_cases hkh : k = h
    · subst hkh
      simp only [mapAtKey, if_pos rfl, toListE, List.mem_cons,
        Prod.ext_iff] at hm
      rcases hm with ⟨-, hv1⟩ | hm
      · exact ⟨v, by simp [toListE], hv1⟩
      · exfalso
        have : hasKey k rest = true := (hasKey_iff_mem k rest).2 ⟨v1, hm⟩
        rw [hd.1] at this
        exact Bool.false_ne_true this
    · simp only [mapAtKey, if_neg hkh, toListE, List.mem_cons,
        Prod.ext_iff] at hm
      rcases hm with ⟨hk, -⟩ | hm
      · exact absurd hk.symm hkh
      · obtain ⟨v0, hm0, hv1⟩ := mem_mapAtKey_self h f rest hd.2 v1 hm
        exact ⟨v0, by simp [toListE, hm0], hv1⟩

theorem delete_chain_mono (q : List String) (o : Yaml) (p : List String)
    (h : chainHolds p ((delete_recursive q o).1) = true) :
    chainHolds p o = true :=
  removeF_chain_mono (ysize o) q o p h

/-- Deletion completeness for the direct chain: after delete_recursive
with path p, the chain p no longer holds at the root (keys per mapping
distinct). -/
theorem delete_chainFree : (p : List String) → p ≠ [] →
    ∀ o, ndY o = true → chainHolds p ((delete_recursive p o).1) = false
  | [], hp, _, _ => absurd rfl hp
  | head :: rest, _, o, hnd => by
    cases o with
    | str s => rw [delete_recursive_str]; rfl
    | int n =>
      rw [delete_recursive_scalar _ _ (fun _ h => Yaml.noConfusion h)
        (fun _ h => Yaml.noConfusion h)]
      rfl
    | bool b =>
      rw [delete_recursive_scalar _ _ (fun _ h => Yaml.noConfusion h)
        (fun _ h => Yaml.noConfusion h)]
      rfl
    | null =>
      rw [delete_recursive_scalar _ _ (fun _ h => Yaml.noConfusion h)
        (fun _ h => Yaml.noConfusion h)]
      rfl
    | list xs => rw [delete_recursive_list]; rfl
    | map es =>
      obtain ⟨hdist, hnde⟩ := (ndY_map_iff es).1 hnd
      rw [delete_recursive_map]
      by_cases hk : hasKey head es
      · cases rest with
        | nil =>
          rw [if_pos hk]
          simp only [List.isEmpty_nil, if_true]
          show entChain head [] (delKey head es) = false
          rw [entChain_nil_eq_hasKey]
          exact hasKey_delKey_distinct head es hdist
        | cons r rs =>
          rw [if_pos hk]
          simp only [List.isEmpty_cons, Bool.false_eq_true, if_false]
          show entChain head (r :: rs)
            (mapVals (delete_recursive (head :: r :: rs))
              (mapAtKey head (delete_recursive (r :: rs)) es).1).1 = false
          by_contra hcon
          rw [Bool.not_eq_false] at hcon
          obtain ⟨v2, hm2, hc2⟩ := (entChain_cons_iff head r rs _).1 hcon
          rw [toListE_mapVals, List.mem_map] at hm2
          obtain ⟨⟨k1, v1⟩, hm1, heq⟩ := hm2
          obtain ⟨hke, rfl⟩ := Prod.ext_iff.1 heq
          dsimp at hke
          rw [hke] at hm1
          obtain ⟨v0, hm0, hv1⟩ := mem_mapAtKey_self head
            (delete_recursive (r :: rs)) es hdist v1 hm1
          subst hv1
          have hnd0 : ndY v0 = true := (ndE_iff_mem es).1 hnde head v0 hm0
          have hfree : chainHolds (r :: rs)
              ((delete_recursive (r :: rs) v0).1) = false :=
            delete_chainFree (r :: rs) (by simp) v0 hnd0
          have : chainHolds (r :: rs)
              ((delete_recursive (r :: rs) v0).1) = true :=
            delete_chain_mono _ _ _ hc2
          rw [hfree] at this
          exact Bool.false_ne_true this
      · rw [if_neg hk]
        show entChain head rest
          (mapVals (delete_recursive (head :: rest)) es).1 = false
        by_contra hcon
        rw [Bool.not_eq_false] at hcon
        have : hasKey head (mapVals (delete_recursive (head :: rest)) es).1
            = true := entChain_hasKey _ _ _ hcon
        rw [hasKey_mapVals] at this
        rw [this] at hk
        exact hk rfl

theorem deleteSeq_nd (ps : List (List String)) :
    ∀ o, ndY o = true → ndY (deleteSeq ps o) = true := by
  induction ps with
  | nil => intro o h; exact h
  | cons q qs ih =>
    intro o h
    simp only [deleteSeq, List.foldl_cons]
    exact ih _ (removeF_nd (ysize o) q o h)

theorem deleteSeq_nv (ps : List (List String)) :
    ∀ o, nvY o = true → nvY (deleteSeq ps o) = true := by
  induction ps with
  | nil => intro o h; exact h
  | cons q qs ih =>
    intro o h
    simp only [deleteSeq, List.foldl_cons]
    exact ih _ (removeF_nv (ysize o) q o h)

theorem deleteSeq_chain_mono (ps : List (List String)) :
    ∀ o p, chainHolds p (deleteSeq ps o) = true → chainHolds p o = true := by
  induction ps with
  | nil => intro o p h; exact h
  | cons q qs ih =>
    intro o p h
    simp only [deleteSeq, List.foldl_cons] at h
    exact delete_chain_mono q o p (ih _ p h)

theorem deleteSeq_chainFree_pres (ps : List (List String)) :
    ∀ o p, chainHolds p o = false → chainHolds p (deleteSeq ps o) = false := by
  intro o p h
  by_contra hcon
  rw [Bool.not_eq_false] at hcon
  rw [deleteSeq_chain_mono ps o p hcon] at h
  simp at h

theorem deleteSeq_chainFree (ps : List (List String)) :
    ∀ p, p ∈ ps → p ≠ [] → ∀ o, ndY o = true →
      chainHolds p (deleteSeq ps o) = false := by
  induction ps with
  | nil => intro p hp; simp at hp
  | cons q qs ih =>
    intro p hp hpne o hnd
    simp only [deleteSeq, List.foldl_cons]
    rcases List.mem_cons.1 hp with rfl | hp2
    · exact deleteSeq_chainFree_pres qs _ p
        (delete_chainFree p hpne o hnd)
    · exact ih p hp2 hpne _ (removeF_nd (ysize o) q o hnd)

theorem deleteSeq_isMap (ps : List (List String)) :
    ∀ es, ∃ es', deleteSeq ps (.map es) = .map es' := by
  induction ps with
  | nil => intro es; exact ⟨es, rfl⟩
  | cons q qs ih =>
    intro es
    simp only [deleteSeq, List.foldl_cons]
    obtain ⟨es1, h1⟩ := removeF_map_isMap (ysize (Yaml.map es)) q es
    show ∃ es', deleteSeq qs ((removeF (ysize (Yaml.map es)) q (.map es)).1) = .map es'
    rw [h1]
    exact ih es1

theorem deleteAll_map_eq (es : Entries) :
    deleteAll (.map es) = .map (entriesOf (deleteAll (.map es))) := by
  obtain ⟨es', h⟩ := deleteSeq_isMap deletionPaths es
  have h2 : deleteAll (.map es) = .map es' := h
  rw [h2]
  rfl

/-! ### Walk-level occurrence lemmas -/

def toListI : Items → List Yaml
  | .nil => []
  | .cons v rest => v :: toListI rest

theorem occE_iff_mem (p : List String) : (es : Entries) →
    (occE p es = true ↔ ∃ k v, (k, v) ∈ toListE es ∧ occY p v = true)
  | .nil => by simp [occE, toListE]
  | .cons k' v' rest => by
    simp [occE, toListE, occE_iff_mem p rest, Prod.ext_iff]
    constructor
    · rintro (h | ⟨k, v, hm, hv⟩)
      · exact ⟨k', v', Or.inl ⟨rfl, rfl⟩, h⟩
      · exact ⟨k, v, Or.inr hm, hv⟩
    · rintro ⟨k, v, ⟨rfl, rfl⟩ | hm, hv⟩
      · exact Or.inl hv
      · exact Or.inr ⟨k, v, hm, hv⟩

theorem occI_iff_mem (p : List String) : (xs : Items) →
    (occI p xs = true ↔ ∃ v ∈ toListI xs, occY p v = true)
  | .nil => by simp [occI, toListI]
  | .cons v' rest => by
    simp [occI, toListI, occI_iff_mem p rest]

theorem ysize_le_of_memE (k : String) (v : Yaml) : (es : Entries) →
    (k, v) ∈ toListE es → ysize v ≤ ysizeE es
  | .nil, hm => by simp [toListE] at hm
  | .cons k' v' rest, hm => by
    simp only [toListE, List.mem_cons, Prod.ext_iff] at hm
    rcases hm with ⟨-, rfl⟩ | hm
    · simp [ysizeE]
      omega
    · have := ysize_le_of_memE k v rest hm
      simp [ysizeE]
      omega

theorem ysize_le_of_memI (v : Yaml) : (xs : Items) →
    v ∈ toListI xs → ysize v ≤ ysizeI xs
  | .nil, hm => by simp [toListI] at hm
  | .cons v' rest, hm => by
    simp only [toListI, List.mem_cons] at hm
    rcases hm with rfl | hm
    · simp [ysizeI]
      omega
    · have := ysize_le_of_memI v rest hm
      simp [ysizeI]
      omega

theorem mem_walkEntriesW (w : Yaml → Yaml) (k : String) (nv : Yaml) :
    (es : Entries) → (k, nv) ∈ toListE (walkEntriesW w es) →
      ∃ v, (k, v) ∈ toListE es ∧ ruleVal k v (w v) = some nv
  | .nil, hm => by simp [walkEntriesW, toListE] at hm
  | .cons k' v' rest, hm => by
    rw [walkEntriesW_cons] at hm
    cases hr : ruleVal k' v' (w v') with
    | none =>
      rw [hr] at hm
      obtain ⟨v, hv, he⟩ := mem_walkEntriesW w k nv rest hm
      exact ⟨v, by simp [toListE, hv], he⟩
    | some nv' =>
      rw [hr] at hm
      simp only [toListE, List.mem_cons, Prod.ext_iff] at hm
      rcases hm with ⟨rfl, rfl⟩ | hm
      · exact ⟨v', by simp [toListE], hr⟩
      · obtain ⟨v, hv, he⟩ := mem_walkEntriesW w k nv rest hm
        exact ⟨v, by simp [toListE, hv], he⟩

theorem hasKey_walkEntriesW (w : Yaml → Yaml) (k : String) :
    (es : Entries) → hasKey k (walkEntriesW w es) = true → hasKey k es = true
  | .nil, hm => hm
  | .cons k' v' rest, hm => by
    rw [walkEntriesW_cons] at hm
    by_cases hk : k' = k
    · simp [hasKey, hk]
    · cases hr : ruleVal k' v' (w v') with
      | none =>
        rw [hr] at hm
        simp [hasKey, hk, hasKey_walkEntriesW w k rest hm]
      | some nv' =>
        rw [hr] at hm
        simp only [hasKey, if_neg hk] at hm ⊢
        exact hasKey_walkEntriesW w k rest hm

theorem ruleVal_some_cases (k : String) (v w nv : Yaml)
    (h : ruleVal k v w = some nv) :
    nv = w ∨ (∃ s, nv = .str s) ∨ (k = "value" ∧ isStrB v = true) := by
  unfold ruleVal at h
  split_ifs at h with c1 c2 c3 c4 c5 c6 c7 c8 c9
  · exact Or.inr (Or.inl ⟨normalize_duration (getStr v),
      (Option.some_inj.1 h).symm⟩)
  · exact Or.inr (Or.inl ⟨"tekton.dev/v1beta1", (Option.some_inj.1 h).symm⟩)
  · exact Or.inr (Or.inr c9)
  · exact Or.inl (Option.some_inj.1 h).symm

theorem ysizeE_deleteAll (es : Entries) :
    ysizeE (entriesOf (deleteAll (.map es))) ≤ ysizeE es := by
  have h1 := deleteAll_size (Yaml.map es)
  rw [deleteAll_map_eq es] at h1
  simp only [ysize] at h1
  omega

theorem nvE_deleteAll (es : Entries) (h : nvY (.map es) = true) :
    nvE (entriesOf (deleteAll (.map es))) = true := by
  have h1 : nvY (deleteAll (.map es)) = true :=
    deleteSeq_nv deletionPaths (.map es) h
  rw [deleteAll_map_eq es] at h1
  exact (nvY_map_iff _).1 h1

theorem ndE_deleteAll (es : Entries) (h : ndY (.map es) = true) :
    keysDistinct (entriesOf (deleteAll (.map es))) = true ∧
      ndE (entriesOf (deleteAll (.map es))) = true := by
  have h1 : ndY (deleteAll (.map es)) = true :=
    deleteSeq_nd deletionPaths (.map es) h
  rw [deleteAll_map_eq es] at h1
  exact (ndY_map_iff _).1 h1

/-- On documents without string-valued `value` entries, walk never creates
a direct chain that was not already present. -/
theorem walk_chain_mono (n : Nat) :
    ∀ o, ysize o ≤ n → nvY o = true →
      ∀ q, chainHolds q (walk o) = true → chainHolds q o = true := by
  induction n with
  | zero =>
    intro o ho
    have := ysize_pos o
    omega
  | succ n ih =>
    intro o ho hnv q hq
    cases o with
    | str s => exact hq
    | int m => exact hq
    | bool b => exact hq
    | null => exact hq
    | list xs =>
      cases q with
      | nil => rfl
      | cons k rest =>
        rw [walk_list] at hq
        simp [chainHolds] at hq
    | map es =>
      cases q with
      | nil => rfl
      | cons k rest =>
        rw [walk_map] at hq
        have hq2 : entChain k rest
            (walkEntriesW walk (entriesOf (deleteAll (.map es)))) = true := hq
        have hnv1 : nvE (entriesOf (deleteAll (.map es))) = true :=
          nvE_deleteAll es hnv
        have hsz : ysizeE (entriesOf (deleteAll (.map es))) ≤ ysizeE es :=
          ysizeE_deleteAll es
        have hes : ysizeE es + 1 ≤ n + 1 := by
          simpa [ysize] using ho
        have hq1 : entChain k rest (entriesOf (deleteAll (.map es))) = true := by
          cases rest with
          | nil =>
            rw [entChain_nil_eq_hasKey] at hq2 ⊢
            exact hasKey_walkEntriesW walk k _ hq2
          | cons r rs =>
            obtain ⟨nv, hm2, hc⟩ := (entChain_cons_iff k r rs _).1 hq2
            obtain ⟨v, hm1, hrule⟩ := mem_walkEntriesW walk k nv _ hm2
            rcases ruleVal_some_cases k v (walk v) nv hrule with
              rfl | ⟨s, rfl⟩ | ⟨hkval, hstr⟩
            · have hnvv : nvY v = true :=
                ((nvE_iff_mem _).1 hnv1 k v hm1).2
              have hszv : ysize v ≤ n := by
                have := ysize_le_of_memE k v _ hm1
                omega
              have hcv : chainHolds (r :: rs) v = true :=
                ih v hszv hnvv (r :: rs) hc
              exact (entChain_cons_iff k r rs _).2 ⟨v, hm1, hcv⟩
            · simp [chainHolds] at hc
            · exact absurd ⟨hkval, hstr⟩ ((nvE_iff_mem _).1 hnv1 k v hm1).1
        have hchain1 : chainHolds (k :: rest) (deleteAll (.map es)) = true := by
          rw [deleteAll_map_eq es]
          exact hq1
        exact deleteSeq_chain_mono deletionPaths (.map es) (k :: rest) hchain1

theorem mem_walkItemsW (w : Yaml → Yaml) (nv : Yaml) : (xs : Items) →
    nv ∈ toListI (walkItemsW w xs) → ∃ v ∈ toListI xs, nv = w v
  | .nil, hm => by simp [walkItemsW, toListI] at hm
  | .cons v' rest, hm => by
    simp only [walkItemsW, toListI, List.mem_cons] at hm
    rcases hm with rfl | hm
    · exact ⟨v', by simp [toListI], rfl⟩
    · obtain ⟨v, hv, he⟩ := mem_walkItemsW w nv rest hm
      exact ⟨v, by simp [toListI, hv], he⟩

theorem ndI_iff_mem : (xs : Items) →
    (ndI xs = true ↔ ∀ v ∈ toListI xs, ndY v = true)
  | .nil => by simp [ndI, toListI]
  | .cons v' rest => by
    simp [ndI, toListI, ndI_iff_mem rest]

theorem nvI_iff_mem : (xs : Items) →
    (nvI xs = true ↔ ∀ v ∈ toListI xs, nvY v = true)
  | .nil => by simp [nvI, toListI]
  | .cons v' rest => by
    simp [nvI, toListI, nvI_iff_mem rest]

/-- Main occurrence lemma: if the deletion pass removes the direct chain p
at every node, then after one walk no occurrence of p remains anywhere,
on documents with distinct keys and no string-valued `value` entries. -/
theorem walk_occ_free_gen (p : List String)
    (hdel : ∀ x, ndY x = true → chainHolds p (deleteAll x) = false) :
    ∀ n o, ysize o ≤ n → ndY o = true → nvY o = true →
      occY p (walk o) = false := by
  intro n
  induction n with
  | zero =>
    intro o ho
    have := ysize_pos o
    omega
  | succ n ih =>
    intro o ho hnd hnv
    cases o with
    | str s => rfl
    | int m => rfl
    | bool b => rfl
    | null => rfl
    | list xs =>
      rw [walk_list]
      show occI p (walkItemsW walk xs) = false
      by_contra hcon
      rw [Bool.not_eq_false] at hcon
      obtain ⟨nv, hm2, hocc⟩ := (occI_iff_mem p _).1 hcon
      obtain ⟨v, hm1, rfl⟩ := mem_walkItemsW walk nv xs hm2
      have hndv : ndY v = true := (ndI_iff_mem xs).1 hnd v hm1
      have hnvv : nvY v = true := (nvI_iff_mem xs).1 hnv v hm1
      have hszv : ysize v ≤ n := by
        have h1 := ysize_le_of_memI v xs hm1
        simp only [ysize] at ho
        omega
      rw [ih v hszv hndv hnvv] at hocc
      exact Bool.false_ne_true hocc
    | map es =>
      rw [walk_map]
      have hnv1 : nvE (entriesOf (deleteAll (.map es))) = true :=
        nvE_deleteAll es hnv
      obtain ⟨hdist1, hnd1⟩ := ndE_deleteAll es hnd
      have hsz1 : ysizeE (entriesOf (deleteAll (.map es))) ≤ ysizeE es :=
        ysizeE_deleteAll es
      have hszes : ysizeE es ≤ n := by
        simp only [ysize] at ho
        omega
      show (chainHolds p (.map (walkEntriesW walk (entriesOf (deleteAll (.map es)))))
          || occE p (walkEntriesW walk (entriesOf (deleteAll (.map es))))) = false
      have hchain : chainHolds p
          (.map (walkEntriesW walk (entriesOf (deleteAll (.map es))))) = false := by
        cases hp : p with
        | nil =>
          have := hdel (.map es) hnd
          rw [hp] at this
          simp [chainHolds] at this
        | cons k0 rest =>
          show entChain k0 rest (walkEntriesW walk _) = false
          by_contra hcon
          rw [Bool.not_eq_false] at hcon
          have hq1 : entChain k0 rest (entriesOf (deleteAll (.map es))) = true := by
            cases rest with
            | nil =>
              rw [entChain_nil_eq_hasKey] at hcon ⊢
              exact hasKey_walkEntriesW walk k0 _ hcon
            | cons r rs =>
              obtain ⟨nv, hm2, hc⟩ := (entChain_cons_iff k0 r rs _).1 hcon
              obtain ⟨v, hm1, hrule⟩ := mem_walkEntriesW walk k0 nv _ hm2
              rcases ruleVal_some_cases k0 v (walk v) nv hrule with
                rfl | ⟨s, rfl⟩ | ⟨hkval, hstr⟩
              · have hnvv : nvY v = true :=
                  ((nvE_iff_mem _).1 hnv1 k0 v hm1).2
                have hcv : chainHolds (r :: rs) v = true :=
                  walk_chain_mono (ysize v) v le_rfl hnvv (r :: rs) hc
                exact (entChain_cons_iff k0 r rs _).2 ⟨v, hm1, hcv⟩
              · simp [chainHolds] at hc
              · exact absurd ⟨hkval, hstr⟩
                  ((nvE_iff_mem _).1 hnv1 k0 v hm1).1
          have hfree := hdel (.map es) hnd
          rw [deleteAll_map_eq es, hp] at hfree
          have : entChain k0 rest (entriesOf (deleteAll (.map es))) = false :=
            hfree
          rw [hq1] at this
          simp at this
      have hocc : occE p (walkEntriesW walk (entriesOf (deleteAll (.map es))))
          = false := by
        by_contra hcon
        rw [Bool.not_eq_false] at hcon
        obtain ⟨k, nv, hm2, hoccv⟩ := (occE_iff_mem p _).1 hcon
        obtain ⟨v, hm1, hrule⟩ := mem_walkEntriesW walk k nv _ hm2
        rcases ruleVal_some_cases k v (walk v) nv hrule with
          rfl | ⟨s, rfl⟩ | ⟨hkval, hstr⟩
        · have hndv : ndY v = true := (ndE_iff_mem _).1 hnd1 k v hm1
          have hnvv : nvY v = true := ((nvE_iff_mem _).1 hnv1 k v hm1).2
          have hszv : ysize v ≤ n := by
            have h1 := ysize_le_of_memE k v _ hm1
            omega
          rw [ih v hszv hndv hnvv] at hoccv
          exact Bool.false_ne_true hoccv
        · simp [occY] at hoccv
        · exact absurd ⟨hkval, hstr⟩ ((nvE_iff_mem _).1 hnv1 k v hm1).1
      rw [hchain, hocc]
      rfl

/-- C2 fails on the code: deletion runs before the value/JSON insertion of
the same pass, so a JSON string parsing to a metadata.uid subtree puts an
occurrence back into the output.  The input document here contains a
metadata.uid occurrence, and after one walk an occurrence is still
present. -/
theorem claim_C2_deletion_completeness_cex :
    occY ["metadata", "uid"]
      (.map (.cons "metadata" (.map (.cons "uid" (.str "x") .nil))
        (.cons "value" (.str "\x7b\"metadata\": \x7b\"uid\": 1\x7d\x7d") .nil)))
      = true ∧
    occY ["metadata", "uid"]
      (walk (.map (.cons "metadata" (.map (.cons "uid" (.str "x") .nil))
        (.cons "value" (.str "\x7b\"metadata\": \x7b\"uid\": 1\x7d\x7d") .nil))))
      = true := by
  refine ⟨by decide, by decide⟩

/-- C2 amended: on documents whose mappings have pairwise-distinct keys
(as every parsed YAML document does) and which contain no string-valued
`value` entry (so the JSON insertion rule cannot re-introduce subtrees),
one walk removes every occurrence of each of the six fixed deletion
paths: no mapping reachable through the path prefix still carries the
terminal key, at any depth, including inside list elements. -/
theorem claim_C2_deletion_completeness_amended (d : Yaml) (p : List String)
    (hp : p ∈ deletionPaths) (hnd : ndY d = true) (hnv : nvY d = true) :
    occY p (walk d) = false := by
  have hpne : p ≠ [] := by
    simp only [deletionPaths, List.mem_cons, List.not_mem_nil, or_false] at hp
    rcases hp with rfl | rfl | rfl | rfl | rfl | rfl <;> simp
  exact walk_occ_free_gen p
    (fun x hx => deleteSeq_chainFree deletionPaths p hp hpne x hx)
    (ysize d) d le_rfl hnd hnv

theorem claim_C2_deletion_completeness_amended_witness :
    (["metadata", "uid"] ∈ deletionPaths ∧
      ndY (.map (.cons "metadata" (.map (.cons "uid" (.str "x") .nil)) .nil))
        = true ∧
      nvY (.map (.cons "metadata" (.map (.cons "uid" (.str "x") .nil)) .nil))
        = true) ∧
    occY ["metadata", "uid"]
      (walk (.map (.cons "metadata" (.map (.cons "uid" (.str "x") .nil)) .nil)))
      = false :=
  ⟨⟨by decide, by decide, by decide⟩,
    claim_C2_deletion_completeness_amended _ _ (by decide) (by decide) (by decide)⟩

/-! ## The in-place effect of walk on its argument (C9)

walk builds and returns a fresh tree, but the six delete_recursive calls
mutate the dict being visited in place, and the recursive walk(v) calls
do the same below.  Values consumed by a non-default rule (a dropped key,
a timeout string, a value string) are not recursed into.  walkEffect
computes the final state of walk's argument; deepDelete applies only the
deletion passes, recursing into every value. -/

/-- Whether some non-default branch of the elif chain fires for `(k, v)`
(in which case walk does not recurse into `v`). -/
def ruleFires (k : String) (v : Yaml) : Bool :=
  decide (k = "timeout" ∧ isStrB v = true) ||
  decide (k = "kind" ∧ v = .str "Task") ||
  decide (k = "type" ∧ v = .str "string") ||
  decide (k = "apiVersion" ∧ v = .str "tekton.dev/v1") ||
  decide (k = "metadata" ∧ v = .map .nil) ||
  decide (k = "computeResources" ∧ v = .map .nil) ||
  decide (k = "spec" ∧ v = .null) ||
  decide (k = "name" ∧ v = .str "") ||
  decide (k = "value" ∧ isStrB v = true)

/-- The state of a dict's entries after the loop body of walk ran on them:
every entry is kept (only `new` omits dropped keys), and only the
fall-through branch recurses. -/
def mutEntriesW (w : Yaml → Yaml) : Entries → Entries
  | .nil => .nil
  | .cons k v rest =>
    .cons k (if ruleFires k v then v else w v) (mutEntriesW w rest)

/-- Transform every value of a dict. -/
def mapValsW (w : Yaml → Yaml) : Entries → Entries
  | .nil => .nil
  | .cons k v rest => .cons k (w v) (mapValsW w rest)

/-- The final state of walk's argument, on structural fuel. -/
def walkMutF : Nat → Yaml → Yaml
  | 0, o => o
  | fuel + 1, o =>
    match o with
    | .map es =>
      .map (mutEntriesW (walkMutF fuel) (entriesOf (deleteAll (.map es))))
    | .list xs => .list (walkItemsW (walkMutF fuel) xs)
    | x => x

def walkEffect (o : Yaml) : Yaml := walkMutF (ysize o) o

/-- Only the deletion passes, applied at every node. -/
def deepDeleteF : Nat → Yaml → Yaml
  | 0, o => o
  | fuel + 1, o =>
    match o with
    | .map es =>
      .map (mapValsW (deepDeleteF fuel) (entriesOf (deleteAll (.map es))))
    | .list xs => .list (walkItemsW (deepDeleteF fuel) xs)
    | x => x

def deepDelete (o : Yaml) : Yaml := deepDeleteF (ysize o) o

theorem mutEntriesW_congr (w1 w2 : Yaml → Yaml) :
    (es : Entries) → (∀ v, ysize v ≤ ysizeE es → w1 v = w2 v) →
    mutEntriesW w1 es = mutEntriesW w2 es
  | .nil, _ => rfl
  | .cons k v rest, h => by
    have hv : w1 v = w2 v := h v (by simp [ysizeE]; omega)
    have hrest : mutEntriesW w1 rest = mutEntriesW w2 rest :=
      mutEntriesW_congr w1 w2 rest fun x hx =>
        h x (by simp [ysizeE] at *; omega)
    simp [mutEntriesW, hv, hrest]

theorem mapValsW_congr (w1 w2 : Yaml → Yaml) :
    (es : Entries) → (∀ v, ysize v ≤ ysizeE es → w1 v = w2 v) →
    mapValsW w1 es = mapValsW w2 es
  | .nil, _ => rfl
  | .cons k v rest, h => by
    have hv : w1 v = w2 v := h v (by simp [ysizeE]; omega)
    have hrest : mapValsW w1 rest = mapValsW w2 rest :=
      mapValsW_congr w1 w2 rest fun x hx =>
        h x (by simp [ysizeE] at *; omega)
    simp [mapValsW, hv, hrest]

theorem walkMutF_fuel (f : Nat) :
    ∀ g o, ysize o ≤ f → ysize o ≤ g → walkMutF f o = walkMutF g o := by
  induction f with
  | zero =>
    intro g o hf _
    have := ysize_pos o
    omega
  | succ f ih =>
    intro g o hf hg
    cases g with
    | zero =>
      have := ysize_pos o
      omega
    | succ g =>
      cases o with
      | map es =>
        have hdel : ysizeE (entriesOf (deleteAll (.map es))) ≤ ysizeE es :=
          ysizeE_deleteAll es
        have hesf : ysizeE es ≤ f := by simp [ysize] at hf; omega
        have hesg : ysizeE es ≤ g := by simp [ysize] at hg; omega
        have e : mutEntriesW (walkMutF f) (entriesOf (deleteAll (.map es)))
            = mutEntriesW (walkMutF g) (entriesOf (deleteAll (.map es))) :=
          mutEntriesW_congr _ _ _ fun v hv =>
            ih g v ((hv.trans hdel).trans hesf) ((hv.trans hdel).trans hesg)
        simp only [walkMutF, e]
      | list xs =>
        have hxf : ysizeI xs ≤ f := by simp [ysize] at hf; omega
        have hxg : ysizeI xs ≤ g := by simp [ysize] at hg; omega
        have e : walkItemsW (walkMutF f) xs = walkItemsW (walkMutF g) xs :=
          walkItemsW_congr _ _ xs fun v hv =>
            ih g v (hv.trans hxf) (hv.trans hxg)
        simp only [walkMutF, e]
      | str s => rfl
      | int n => rfl
      | bool b => rfl
      | null => rfl

theorem deepDeleteF_fuel (f : Nat) :
    ∀ g o, ysize o ≤ f → ysize o ≤ g → deepDeleteF f o = deepDeleteF g o := by
  induction f with
  | zero =>
    intro g o hf _
    have := ysize_pos o
    omega
  | succ f ih =>
    intro g o hf hg
    cases g with
    | zero =>
      have := ysize_pos o
      omega
    | succ g =>
      cases o with
      | map es =>
        have hdel : ysizeE (entriesOf (deleteAll (.map es))) ≤ ysizeE es :=
          ysizeE_deleteAll es
        have hesf : ysizeE es ≤ f := by simp [ysize] at hf; omega
        have hesg : ysizeE es ≤ g := by simp [ysize] at hg; omega
        have e : mapValsW (deepDeleteF f) (entriesOf (deleteAll (.map es)))
            = mapValsW (deepDeleteF g) (entriesOf (deleteAll (.map es))) :=
          mapValsW_congr _ _ _ fun v hv =>
            ih g v ((hv.trans hdel).trans hesf) ((hv.trans hdel).trans hesg)
        simp only [deepDeleteF, e]
      | list xs =>
        have hxf : ysizeI xs ≤ f := by simp [ysize] at hf; omega
        have hxg : ysizeI xs ≤ g := by simp [ysize] at hg; omega
        have e : walkItemsW (deepDeleteF f) xs = walkItemsW (deepDeleteF g) xs :=
          walkItemsW_congr _ _ xs fun v hv =>
            ih g v (hv.trans hxf) (hv.trans hxg)
        simp only [deepDeleteF, e]
      | str s => rfl
      | int n => rfl
      | bool b => rfl
      | null => rfl

theorem walkEffect_map (es : Entries) :
    walkEffect (.map es)
      = .map (mutEntriesW walkEffect (entriesOf (deleteAll (.map es)))) := by
  have h0 : walkEffect (.map es) = walkMutF (ysizeE es + 1) (.map es) := rfl
  rw [h0]
  have hdel : ysizeE (entriesOf (deleteAll (.map es))) ≤ ysizeE es :=
    ysizeE_deleteAll es
  have e : mutEntriesW (walkMutF (ysizeE es)) (entriesOf (deleteAll (.map es)))
      = mutEntriesW walkEffect (entriesOf (deleteAll (.map es))) :=
    mutEntriesW_congr _ _ _ fun v hv =>
      walkMutF_fuel (ysizeE es) (ysize v) v (hv.trans hdel) le_rfl
  simp only [walkMutF, e]

theorem walkEffect_list (xs : Items) :
    walkEffect (.list xs) = .list (walkItemsW walkEffect xs) := by
  have h0 : walkEffect (.list xs) = walkMutF (ysizeI xs + 1) (.list xs) := rfl
  rw [h0]
  have e : walkItemsW (walkMutF (ysizeI xs)) xs = walkItemsW walkEffect xs :=
    walkItemsW_congr _ _ xs fun v hv =>
      walkMutF_fuel (ysizeI xs) (ysize v) v hv le_rfl
  simp only [walkMutF, e]

theorem deepDelete_map (es : Entries) :
    deepDelete (.map es)
      = .map (mapValsW deepDelete (entriesOf (deleteAll (.map es)))) := by
  have h0 : deepDelete (.map es) = deepDeleteF (ysizeE es + 1) (.map es) := rfl
  rw [h0]
  have hdel : ysizeE (entriesOf (deleteAll (.map es))) ≤ ysizeE es :=
    ysizeE_deleteAll es
  have e : mapValsW (deepDeleteF (ysizeE es)) (entriesOf (deleteAll (.map es)))
      = mapValsW deepDelete (entriesOf (deleteAll (.map es))) :=
    mapValsW_congr _ _ _ fun v hv =>
      deepDeleteF_fuel (ysizeE es) (ysize v) v (hv.trans hdel) le_rfl
  simp only [deepDeleteF, e]

theorem deepDelete_list (xs : Items) :
    deepDelete (.list xs) = .list (walkItemsW deepDelete xs) := by
  have h0 : deepDelete (.list xs) = deepDeleteF (ysizeI xs + 1) (.list xs) := rfl
  rw [h0]
  have e : walkItemsW (deepDeleteF (ysizeI xs)) xs = walkItemsW deepDelete xs :=
    walkItemsW_congr _ _ xs fun v hv =>
      deepDeleteF_fuel (ysizeI xs) (ysize v) v hv le_rfl
  simp only [deepDeleteF, e]

theorem ruleFires_shape (k : String) (v : Yaml) (h : ruleFires k v = true) :
    (∃ s, v = .str s) ∨ v = .map .nil ∨ v = .null := by
  unfold ruleFires at h
  simp only [Bool.or_eq_true, decide_eq_true_eq] at h
  rcases h with ((((((((h | h) | h) | h) | h) | h) | h) | h) | h)
  · have hs := h.2
    cases v <;> simp [isStrB] at hs ⊢
  · exact Or.inl ⟨_, h.2⟩
  · exact Or.inl ⟨_, h.2⟩
  · exact Or.inl ⟨_, h.2⟩
  · exact Or.inr (Or.inl h.2)
  · exact Or.inr (Or.inl h.2)
  · exact Or.inr (Or.inr h.2)
  · exact Or.inl ⟨_, h.2⟩
  · have hs := h.2
    cases v <;> simp [isStrB] at hs ⊢

theorem deepDelete_str (s : String) : deepDelete (.str s) = .str s := rfl

theorem deepDelete_null : deepDelete .null = .null := rfl

theorem deepDelete_empty_map : deepDelete (.map .nil) = .map .nil := by decide

theorem mutEntriesW_eq_mapValsW (n : Nat)
    (hw : ∀ v, ysize v ≤ n → walkEffect v = deepDelete v) : (es : Entries) →
    ysizeE es ≤ n → mutEntriesW walkEffect es = mapValsW deepDelete es
  | .nil, _ => rfl
  | .cons k v rest, hb => by
    have hv : ysize v ≤ n := by simp [ysizeE] at hb; omega
    have hrest := mutEntriesW_eq_mapValsW n hw rest
      (by simp [ysizeE] at hb ⊢; omega)
    simp only [mutEntriesW, mapValsW, hrest]
    by_cases hf : ruleFires k v
    · rw [if_pos hf]
      rcases ruleFires_shape k v hf with ⟨s, rfl⟩ | rfl | rfl
      · rw [deepDelete_str]
      · rw [deepDelete_empty_map]
      · rw [deepDelete_null]
    · rw [if_neg hf, hw v hv]

/-- The final state of walk's argument is exactly the deletion passes
applied at every node: the rewrite rules never touch the input. -/
theorem walkEffect_eq_deepDelete_aux (n : Nat) :
    ∀ o, ysize o ≤ n → walkEffect o = deepDelete o := by
  induction n with
  | zero =>
    intro o ho
    have := ysize_pos o
    omega
  | succ n ih =>
    intro o ho
    cases o with
    | str s => rfl
    | int m => rfl
    | bool b => rfl
    | null => rfl
    | list xs =>
      rw [walkEffect_list, deepDelete_list]
      have hsz : ysizeI xs ≤ n := by simp [ysize] at ho; omega
      have e : walkItemsW walkEffect xs = walkItemsW deepDelete xs :=
        walkItemsW_congr _ _ xs fun v hv => ih v (by omega)
      rw [e]
    | map es =>
      rw [walkEffect_map, deepDelete_map]
      have hsz : ysizeE es ≤ n := by simp [ysize] at ho; omega
      have hdel : ysizeE (entriesOf (deleteAll (.map es))) ≤ ysizeE es :=
        ysizeE_deleteAll es
      have e : mutEntriesW walkEffect (entriesOf (deleteAll (.map es)))
          = mapValsW deepDelete (entriesOf (deleteAll (.map es))) :=
        mutEntriesW_eq_mapValsW n ih _ (by omega)
      rw [e]

theorem mem_mapValsW (w : Yaml → Yaml) (k : String) (nv : Yaml) :
    (es : Entries) → (k, nv) ∈ toListE (mapValsW w es) →
      ∃ v, (k, v) ∈ toListE es ∧ nv = w v
  | .nil, hm => by simp [mapValsW, toListE] at hm
  | .cons k' v' rest, hm => by
    simp only [mapValsW, toListE, List.mem_cons, Prod.ext_iff] at hm
    rcases hm with ⟨rfl, rfl⟩ | hm
    · exact ⟨v', by simp [toListE], rfl⟩
    · obtain ⟨v, hv, he⟩ := mem_mapValsW w k nv rest hm
      exact ⟨v, by simp [toListE, hv], he⟩

theorem hasKey_mapValsW (w : Yaml → Yaml) (k : String) : (es : Entries) →
    hasKey k (mapValsW w es) = hasKey k es
  | .nil => rfl
  | .cons k' v' rest => by
    by_cases hk : k' = k <;>
      simp [mapValsW, hasKey, hk, hasKey_mapValsW w k rest]

theorem deep_chain_mono (n : Nat) :
    ∀ o, ysize o ≤ n → ∀ q, chainHolds q (deepDelete o) = true →
      chainHolds q o = true := by
  induction n with
  | zero =>
    intro o ho
    have := ysize_pos o
    omega
  | succ n ih =>
    intro o ho q hq
    cases o with
    | str s => exact hq
    | int m => exact hq
    | bool b => exact hq
    | null => exact hq
    | list xs =>
      cases q with
      | nil => rfl
      | cons k rest =>
        rw [deepDelete_list] at hq
        simp [chainHolds] at hq
    | map es =>
      cases q with
      | nil => rfl
      | cons k rest =>
        rw [deepDelete_map] at hq
        have hsz : ysizeE (entriesOf (deleteAll (.map es))) ≤ ysizeE es :=
          ysizeE_deleteAll es
        have hes : ysizeE es ≤ n := by simp [ysize] at ho; omega
        have hq2 : entChain k rest
            (mapValsW deepDelete (entriesOf (deleteAll (.map es)))) = true := hq
        have hq1 : entChain k rest (entriesOf (deleteAll (.map es))) = true := by
          cases rest with
          | nil =>
            rw [entChain_nil_eq_hasKey] at hq2 ⊢
            rw [hasKey_mapValsW] at hq2
            exact hq2
          | cons r rs =>
            obtain ⟨nv, hm2, hc⟩ := (entChain_cons_iff k r rs _).1 hq2
            obtain ⟨v, hm1, rfl⟩ := mem_mapValsW deepDelete k nv _ hm2
            have hszv : ysize v ≤ n := by
              have := ysize_le_of_memE k v _ hm1
              omega
            exact (entChain_cons_iff k r rs _).2
              ⟨v, hm1, ih v hszv (r :: rs) hc⟩
        have hchain1 : chainHolds (k :: rest) (deleteAll (.map es)) = true := by
          rw [deleteAll_map_eq es]
          exact hq1
        exact deleteSeq_chain_mono deletionPaths (.map es) (k :: rest) hchain1

theorem deep_occ_free (p : List String)
    (hdel : ∀ x, ndY x = true → chainHolds p (deleteAll x) = false) :
    ∀ n o, ysize o ≤ n → ndY o = true → occY p (deepDelete o) = false := by
  intro n
  induction n with
  | zero =>
    intro o ho
    have := ysize_pos o
    omega
  | succ n ih =>
    intro o ho hnd
    cases o with
    | str s => rfl
    | int m => rfl
    | bool b => rfl
    | null => rfl
    | list xs =>
      rw [deepDelete_list]
      show occI p (walkItemsW deepDelete xs) = false
      by_contra hcon
      rw [Bool.not_eq_false] at hcon
      obtain ⟨nv, hm2, hocc⟩ := (occI_iff_mem p _).1 hcon
      obtain ⟨v, hm1, rfl⟩ := mem_walkItemsW deepDelete nv xs hm2
      have hndv : ndY v = true := (ndI_iff_mem xs).1 hnd v hm1
      have hszv : ysize v ≤ n := by
        have h1 := ysize_le_of_memI v xs hm1
        simp only [ysize] at ho
        omega
      rw [ih v hszv hndv] at hocc
      exact Bool.false_ne_true hocc
    | map es =>
      rw [deepDelete_map]
      obtain ⟨hdist1, hnd1⟩ := ndE_deleteAll es hnd
      have hsz1 : ysizeE (entriesOf (deleteAll (.map es))) ≤ ysizeE es :=
        ysizeE_deleteAll es
      have hszes : ysizeE es ≤ n := by simp only [ysize] at ho; omega
      show (chainHolds p
            (.map (mapValsW deepDelete (entriesOf (deleteAll (.map es)))))
          || occE p (mapValsW deepDelete (entriesOf (deleteAll (.map es)))))
        = false
      have hchain : chainHolds p
          (.map (mapValsW deepDelete (entriesOf (deleteAll (.map es)))))
          = false := by
        cases hp : p with
        | nil =>
          have := hdel (.map es) hnd
          rw [hp] at this
          simp [chainHolds] at this
        | cons k0 rest =>
          show entChain k0 rest (mapValsW deepDelete _) = false
          by_contra hcon
          rw [Bool.not_eq_false] at hcon
          have hq1 : entChain k0 rest (entriesOf (deleteAll (.map es)))
              = true := by
            cases rest with
            | nil =>
              rw [entChain_nil_eq_hasKey] at hcon ⊢
              rw [hasKey_mapValsW] at hcon
              exact hcon
            | cons r rs =>
              obtain ⟨nv, hm2, hc⟩ := (entChain_cons_iff k0 r rs _).1 hcon
              obtain ⟨v, hm1, rfl⟩ := mem_mapValsW deepDelete k0 nv _ hm2
              have hcv : chainHolds (r :: rs) v = true :=
                deep_chain_mono (ysize v) v le_rfl (r :: rs) hc
              exact (entChain_cons_iff k0 r rs _).2 ⟨v, hm1, hcv⟩
          have hfree := hdel (.map es) hnd
          rw [deleteAll_map_eq es, hp] at hfree
          have h2 : entChain k0 rest (entriesOf (deleteAll (.map es)))
              = false := hfree
          rw [hq1] at h2
          simp at h2
      have hocc : occE p
          (mapValsW deepDelete (entriesOf (deleteAll (.map es)))) = false := by
        by_contra hcon
        rw [Bool.not_eq_false] at hcon
        obtain ⟨k, nv, hm2, hoccv⟩ := (occE_iff_mem p _).1 hcon
        obtain ⟨v, hm1, rfl⟩ := mem_mapValsW deepDelete k nv _ hm2
        have hndv : ndY v = true := (ndE_iff_mem _).1 hnd1 k v hm1
        have hszv : ysize v ≤ n := by
          have h1 := ysize_le_of_memE k v _ hm1
          omega
        rw [ih v hszv hndv] at hoccv
        exact Bool.false_ne_true hoccv
      rw [hchain, hocc]
      rfl

/-- C9: walk mutates its argument through the in-place deletions and only
through them: the final state of the input equals the pure deletion pass
deepDelete applied at every node (the timeout, kind, apiVersion, value and
other rewrite rules affect only the returned copy), and consequently the
mutated input no longer contains any metadata.uid occurrence (keys per
mapping distinct, as in every parsed document). -/
theorem claim_C9_walk_mutates_input (d : Yaml) :
    walkEffect d = deepDelete d ∧
    (ndY d = true → occY ["metadata", "uid"] (walkEffect d) = false) := by
  have he : walkEffect d = deepDelete d :=
    walkEffect_eq_deepDelete_aux (ysize d) d le_rfl
  refine ⟨he, fun hnd => ?_⟩
  rw [he]
  refine deep_occ_free ["metadata", "uid"] ?_ (ysize d) d le_rfl hnd
  intro x hx
  exact deleteSeq_chainFree deletionPaths ["metadata", "uid"] (by decide)
    (by decide) x hx

theorem claim_C9_walk_mutates_input_witness :
    (walkEffect (.map (.cons "metadata" (.map (.cons "uid" (.str "x") .nil))
        (.cons "timeout" (.str "15m0s") .nil)))
      = deepDelete (.map (.cons "metadata" (.map (.cons "uid" (.str "x") .nil))
        (.cons "timeout" (.str "15m0s") .nil))) ∧
    ndY (.map (.cons "metadata" (.map (.cons "uid" (.str "x") .nil))
        (.cons "timeout" (.str "15m0s") .nil)) : Yaml) = true) ∧
    occY ["metadata", "uid"]
      (walkEffect (.map (.cons "metadata" (.map (.cons "uid" (.str "x") .nil))
        (.cons "timeout" (.str "15m0s") .nil)))) = false :=
  ⟨⟨(claim_C9_walk_mutates_input _).1, by decide⟩,
    (claim_C9_walk_mutates_input _).2 (by decide)⟩
